import Mathlib

/-!
Verification of the LRU hash map core (package `lru`):
the SwissTable-style open-addressed index with an intrusive recency list.
The definitions below are shallow embeddings of the Go source:
`probe.go` (probe sequence and size rounding), the bitset/metadata SWAR
primitives, the option handling (`minCapacity = 16`), and the final
`Map` implementation (`Set`/`Get`/`Delete`/`insert`/`find`/`del`/
`rehashOrGrow`/...).  Go `int` values are modelled as `Int`, `uint64`
values as `Nat` reduced mod `2^64` where overflow matters, byte arrays as
`Array Nat` with entries `< 256`.
-/

namespace LruMap

/-- `groupSize = 8` from the source. -/
def groupSize : Int := 8

/-- `sizeInfo` from `probe.go`: table capacity and the probe stride field `n`.
`roundSizeUp` always produces `capacity = q*q*8`, `n = q*8`. -/
structure SizeInfo where
  capacity : Int
  n : Int
deriving Repr, DecidableEq

/-- `addModulo` from `probe.go`: `x + y`, reduced once to stay in `[1, max]`. -/
def addModulo (x y mx : Int) : Int :=
  if x + y > mx then x + y - mx else x + y

/-- `subModulo` from `probe.go`: `x - y`, reduced once to stay in `[1, max]`. -/
def subModulo (x y mx : Int) : Int :=
  if x - y < 1 then x - y + mx else x - y

/-- Integer ceiling square root.  This models `int(math.Ceil(math.Sqrt(float64 k)))`
from `roundSizeUp`: for every table size arising here (far below `2^52`,
where `float64` represents the operand exactly and `math.Sqrt` is correctly
rounded) the Go expression computes exactly the least `q` with `k ≤ q*q`. -/
def ceilSqrt (k : Nat) : Nat :=
  if Nat.sqrt k * Nat.sqrt k = k then Nat.sqrt k else Nat.sqrt k + 1

/-- `roundSizeUp` from `probe.go`: find the next size of the form `q*q*groupSize`.
Go computes `sz / groupSize` with non-negative `sz` (truncating division),
modelled by `Nat` division after `toNat`. -/
def roundSizeUp (sz : Int) : SizeInfo :=
  let q : Int := (ceilSqrt (sz.toNat / 8) : Nat)
  { capacity := q * q * 8, n := q * 8 }

/-- Capacity clamping from `getOpts` (`option.go`): `minCapacity = 16`. -/
def getOptsCapacity (req : Int) : Int :=
  if req < 16 then 16 else req

/-- The `sizeInfo` produced by `Map.Init` for a requested capacity:
`m.resize(roundSizeUp(o.capacity))` after `getOpts` clamping. -/
def initSizeInfo (req : Int) : SizeInfo :=
  roundSizeUp (getOptsCapacity req)

/-- The grow target from `rehashOrGrow`:
`int(math.Ceil(float64(m.capacity) * 50 / 32))`.  For the capacities arising
here the float computation is exact (`capacity * 50 < 2^53` and division by
`32` only shifts the exponent), so it equals `⌈capacity * 50 / 32⌉`. -/
def growTarget (c : Int) : Int :=
  ((c.toNat * 50 + 31) / 32 : Nat)

/-- A `sizeInfo` reachable through `roundSizeUp` in this package:
`capacity = 8*q*q` and `n = 8*q` for some `q ≥ 2`. -/
def SizeInfo.Valid (si : SizeInfo) : Prop :=
  ∃ q : Nat, 2 ≤ q ∧ si.capacity = 8 * q * q ∧ si.n = 8 * q

/-- Probe state from `probe.go`. -/
structure Probe where
  si : SizeInfo
  offset : Int
  dn : Int
deriving Repr

/-- `reduceRange` from `bits.go`: the high 64-bit word of `x * n`,
i.e. `(x * n) / 2^64` for `x < 2^64`. -/
def reduceRange (x : Nat) (n : Int) : Int :=
  ((x * n.toNat) / 2 ^ 64 : Nat)

/-- `h1` from the bitset file of the final draft: `uint(hash >> 7)`. -/
def h1 (hash : Nat) : Nat := (hash % 2 ^ 64) >>> 7

/-- `h2` from the bitset file: `uint8(hash) | setMask` with `setMask = 0x80`. -/
def h2 (hash : Nat) : Nat := (hash % 2 ^ 64) % 256 ||| 128

/-- `newProbe` from `probe.go` (its `hash` argument is the already-split `h1`). -/
def newProbe (x : Nat) (si : SizeInfo) : Probe :=
  { si := si, offset := reduceRange x si.capacity + 1, dn := 0 }

/-- `probe.next` from `probe.go`, quadratic probing by groups. -/
def Probe.next (p : Probe) : Probe :=
  let inc := p.dn + p.si.n + groupSize
  let dn := if inc > p.si.capacity then p.dn - p.si.capacity else p.dn
  let inc := if inc > p.si.capacity then inc - p.si.capacity else inc
  { si := p.si, offset := addModulo p.offset inc p.si.capacity, dn := dn + p.si.n * 2 }

/-- `probe.index` from `probe.go`. -/
def Probe.index (p : Probe) (i : Int) : Int :=
  addModulo p.offset i p.si.capacity

/-- `probe.distance` from `probe.go`. -/
def Probe.distance (p : Probe) (i : Int) : Int :=
  subModulo i p.offset p.si.capacity

/-- The `k`-th probe state for a given split hash `x` (the sequence of states
of the `p = p.next()` loops in `find` / `insert`). -/
def probeSeq (x : Nat) (si : SizeInfo) (k : Nat) : Probe :=
  Probe.next^[k] (newProbe x si)

/-- Number of groups of the table: `capacity / groupSize`. -/
def numGroups (si : SizeInfo) : Nat :=
  si.capacity.toNat / 8

theorem ceilSqrt_spec (k : Nat) : k ≤ ceilSqrt k * ceilSqrt k := by
  unfold ceilSqrt
  split
  · omega
  · exact Nat.le_of_lt (Nat.lt_succ_sqrt k)

theorem ceilSqrt_le_of_le_sq (k q : Nat) (h : k ≤ q * q) : ceilSqrt k ≤ q := by
  unfold ceilSqrt
  have hspec : Nat.sqrt k * Nat.sqrt k ≤ k := Nat.sqrt_le k
  have hs : Nat.sqrt k ≤ q := by
    by_contra hlt
    push_neg at hlt
    have h1 : (q + 1) * (q + 1) ≤ Nat.sqrt k * Nat.sqrt k :=
      Nat.mul_le_mul hlt hlt
    nlinarith
  split
  · exact hs
  · next hne =>
    rcases Nat.lt_or_ge (Nat.sqrt k) q with h' | h'
    · omega
    · have hq : Nat.sqrt k = q := le_antisymm hs h'
      rw [hq] at hspec hne
      omega

theorem two_le_ceilSqrt (k : Nat) (h : 2 ≤ k) : 2 ≤ ceilSqrt k := by
  by_contra hlt
  push_neg at hlt
  have hs := ceilSqrt_spec k
  have h1 : ceilSqrt k ≤ 1 := by omega
  have h2 : ceilSqrt k * ceilSqrt k ≤ 1 * 1 := Nat.mul_le_mul h1 h1
  omega

theorem addModulo_bounds (x y mx : Int) (hx1 : 1 ≤ x) (hx2 : x ≤ mx)
    (hy1 : 0 ≤ y) (hy2 : y ≤ mx) :
    1 ≤ addModulo x y mx ∧ addModulo x y mx ≤ mx := by
  unfold addModulo
  split <;> omega

theorem addModulo_modeq (x y mx : Int) :
    addModulo x y mx ≡ x + y [ZMOD mx] := by
  unfold addModulo
  split
  · have h : mx ∣ (x + y) - (x + y - mx) := ⟨1, by ring⟩
    exact Int.modEq_iff_dvd.mpr h
  · rfl

theorem subModulo_bounds (x y mx : Int) (hx1 : 1 ≤ x) (hx2 : x ≤ mx)
    (hy1 : 0 ≤ y) (hy2 : y ≤ mx) :
    1 ≤ subModulo x y mx ∧ subModulo x y mx ≤ mx := by
  unfold subModulo
  split <;> omega

theorem subModulo_modeq (x y mx : Int) :
    subModulo x y mx ≡ x - y [ZMOD mx] := by
  unfold subModulo
  split
  · have h : mx ∣ (x - y) - (x - y + mx) := ⟨-1, by ring⟩
    exact Int.modEq_iff_dvd.mpr h
  · rfl

/-- Two values in the canonical range `[1, mx]` that are congruent mod `mx`
are equal. -/
theorem repr_unique (a b mx : Int) (ha1 : 1 ≤ a) (ha2 : a ≤ mx)
    (hb1 : 1 ≤ b) (hb2 : b ≤ mx) (h : a ≡ b [ZMOD mx]) : a = b := by
  have hd : mx ∣ b - a := Int.modEq_iff_dvd.mp h
  rcases hd with ⟨t, ht⟩
  rcases lt_trichotomy t 0 with h' | h' | h'
  · have hle : mx * t ≤ mx * (-1) :=
      mul_le_mul_of_nonneg_left (by omega) (by omega)
    omega
  · subst h'
    omega
  · have hle : mx * 1 ≤ mx * t :=
      mul_le_mul_of_nonneg_left (by omega) (by omega)
    omega

theorem Probe.next_si (p : Probe) : p.next.si = p.si := rfl

theorem Probe.next_offset (p : Probe) :
    p.next.offset = addModulo p.offset
      (if p.dn + p.si.n + 8 > p.si.capacity
        then p.dn + p.si.n + 8 - p.si.capacity
        else p.dn + p.si.n + 8) p.si.capacity := rfl

theorem Probe.next_dn (p : Probe) :
    p.next.dn = (if p.dn + p.si.n + 8 > p.si.capacity
        then p.dn - p.si.capacity else p.dn) + p.si.n * 2 := rfl

/-- Main probe-sequence invariant: starting from any offset in `[1, capacity]`
with `dn = 0`, after `k` steps of `probe.next` the offset is still in
`[1, capacity]` and congruent to `start + n*k^2 + 8*k` mod `capacity`
(the quadratic schedule `h(k) = H + n k² + g k`), while `dn` is congruent
to `2*n*k` and stays in `[0, capacity + n - 8]`. -/
theorem probe_iterate_spec (q : Nat) (hq : 2 ≤ q) (si : SizeInfo)
    (hc : si.capacity = 8 * q * q) (hn : si.n = 8 * q)
    (p0 : Probe) (hsi : p0.si = si)
    (ho1 : 1 ≤ p0.offset) (ho2 : p0.offset ≤ si.capacity)
    (hdn : p0.dn = 0) (k : Nat) :
    (Probe.next^[k] p0).si = si ∧
    1 ≤ (Probe.next^[k] p0).offset ∧
    (Probe.next^[k] p0).offset ≤ si.capacity ∧
    (Probe.next^[k] p0).offset ≡ p0.offset + 8 * q * k * k + 8 * k [ZMOD si.capacity] ∧
    0 ≤ (Probe.next^[k] p0).dn ∧
    (Probe.next^[k] p0).dn ≤ si.capacity + si.n - 8 ∧
    (Probe.next^[k] p0).dn ≡ 16 * q * k [ZMOD si.capacity] := by
  have hqI : (2 : Int) ≤ (q : Int) := by exact_mod_cast hq
  have hq2 : 16 * (q : Int) ≤ 8 * q * q := by nlinarith
  induction k with
  | zero =>
    simp only [Function.iterate_zero_apply]
    refine ⟨hsi, ho1, ho2, by simp [Int.ModEq], by omega, ?_, by simp [hdn, Int.ModEq]⟩
    rw [hdn, hc, hn]
    linarith
  | succ k ih =>
    obtain ⟨ihsi, ih1, ih2, ihmod, ihd0, ihd1, ihdmod⟩ := ih
    rw [Function.iterate_succ_apply']
    set p := Probe.next^[k] p0 with hp
    obtain ⟨A, hA⟩ := Int.modEq_iff_dvd.mp ihmod
    obtain ⟨B, hB⟩ := Int.modEq_iff_dvd.mp ihdmod
    rw [Probe.next_si, Probe.next_offset, Probe.next_dn, ihsi, hn]
    have ihd1n : p.dn ≤ 8 * (q:Int) * q + 8 * q - 8 := by
      rw [hc, hn] at ihd1
      linarith
    have hcapq : si.capacity = 8 * (q:Int) * q := hc
    by_cases hcond : p.dn + 8 * (q:Int) + 8 > si.capacity
    · simp only [if_pos hcond]
      have hi1 : 1 ≤ p.dn + 8 * (q:Int) + 8 - si.capacity := by omega
      have hi2 : p.dn + 8 * (q:Int) + 8 - si.capacity ≤ si.capacity := by
        rw [hcapq]
        linarith
      obtain ⟨C, hC⟩ := Int.modEq_iff_dvd.mp
        (addModulo_modeq p.offset (p.dn + 8 * (q:Int) + 8 - si.capacity) si.capacity)
      refine ⟨trivial, (addModulo_bounds _ _ _ ih1 ih2 (by omega) hi2).1,
        (addModulo_bounds _ _ _ ih1 ih2 (by omega) hi2).2, ?_, ?_, ?_, ?_⟩
      · rw [Int.modEq_iff_dvd]
        refine ⟨A + B + C + 1, ?_⟩
        push_cast at hA hB hC ⊢
        linear_combination hA + hB + hC
      · rw [hcapq] at hcond
        linarith
      · rw [hcapq] at hcond ⊢
        linarith
      · rw [Int.modEq_iff_dvd]
        refine ⟨B + 1, ?_⟩
        push_cast at hB ⊢
        linear_combination hB
    · simp only [if_neg hcond]
      push_neg at hcond
      have hi1 : 0 ≤ p.dn + 8 * (q:Int) + 8 := by
        have hq0 : (0:Int) ≤ (q:Int) := by positivity
        omega
      obtain ⟨C, hC⟩ := Int.modEq_iff_dvd.mp
        (addModulo_modeq p.offset (p.dn + 8 * (q:Int) + 8) si.capacity)
      refine ⟨trivial, (addModulo_bounds _ _ _ ih1 ih2 hi1 hcond).1,
        (addModulo_bounds _ _ _ ih1 ih2 hi1 hcond).2, ?_, ?_, ?_, ?_⟩
      · rw [Int.modEq_iff_dvd]
        refine ⟨A + B + C, ?_⟩
        push_cast at hA hB hC ⊢
        linear_combination hA + hB + hC
      · omega
      · rw [hcapq] at hcond ⊢
        linarith
      · rw [Int.modEq_iff_dvd]
        refine ⟨B, ?_⟩
        push_cast at hB ⊢
        linear_combination hB

theorem dvd_bounded_zero (q x : Int) (hq : 0 < q) (h : q ∣ x)
    (h1 : -q < x) (h2 : x < q) : x = 0 := by
  rcases h with ⟨t, ht⟩
  rcases lt_trichotomy t 0 with h' | h' | h'
  · have hle : q * t ≤ q * (-1) := mul_le_mul_of_nonneg_left (by omega) (by omega)
    omega
  · subst h'
    omega
  · have hle : q * 1 ≤ q * t := mul_le_mul_of_nonneg_left (by omega) (by omega)
    omega

/-- Injectivity of the quadratic group schedule `k ↦ q k² + k` modulo `q²`. -/
theorem quad_inj (q : Nat) (hq : 1 ≤ q) (j k : Nat) (hj : j < q * q) (hk : k < q * q)
    (h : ((q * q : Nat) : Int) ∣ ((q : Int) * k * k + k) - ((q : Int) * j * j + j)) :
    j = k := by
  have hqI : (1 : Int) ≤ (q : Int) := by exact_mod_cast hq
  have hjI : (j : Int) < (q : Int) * q := by exact_mod_cast hj
  have hkI : (k : Int) < (q : Int) * q := by exact_mod_cast hk
  push_cast at h
  -- decompose j and k by division by q
  obtain ⟨b, a, hab, hja⟩ : ∃ b a : Nat, a < q ∧ j = q * b + a :=
    ⟨j / q, j % q, Nat.mod_lt _ (by omega), (Nat.div_add_mod j q).symm⟩
  obtain ⟨c, a2, hab2, hka⟩ : ∃ c a2 : Nat, a2 < q ∧ k = q * c + a2 :=
    ⟨k / q, k % q, Nat.mod_lt _ (by omega), (Nat.div_add_mod k q).symm⟩
  have hbq : b < q := by nlinarith
  have hcq : c < q := by nlinarith
  obtain ⟨t, ht⟩ := h
  -- q divides k - j
  have hd1 : (q : Int) ∣ (k : Int) - j :=
    ⟨q * t - ((k : Int) * k - (j : Int) * j), by linear_combination ht⟩
  -- hence the low parts agree
  have hjc : (j : Int) = q * b + a := by exact_mod_cast hja
  have hkc : (k : Int) = q * c + a2 := by exact_mod_cast hka
  have hd2 : (q : Int) ∣ (a2 : Int) - a := by
    obtain ⟨u, hu⟩ := hd1
    exact ⟨u - ((c : Int) - b), by linear_combination hu + hjc - hkc⟩
  have haeq : (a2 : Int) - a = 0 := by
    apply dvd_bounded_zero _ _ (by omega) hd2
    · have : (a : Int) < q := by exact_mod_cast hab
      have h0 : (0 : Int) ≤ (a2 : Int) := by positivity
      omega
    · have : (a2 : Int) < q := by exact_mod_cast hab2
      have h0 : (0 : Int) ≤ (a : Int) := by positivity
      omega
  -- now q divides c - b
  have hd3 : (q : Int) ∣ ((c : Int) - b) * ((q : Int) * (k + j) + 1) := by
    have hfac : ((q : Int) * q) ∣ (q : Int) * (((c : Int) - b) * ((q : Int) * (k + j) + 1)) := by
      refine ⟨t, ?_⟩
      linear_combination ht + ((q:Int) * (k+j) + 1) * hjc - ((q:Int) * (k+j) + 1) * hkc
        - ((q:Int) * (k+j) + 1) * haeq
    have hq0 : (q : Int) ≠ 0 := by omega
    exact (mul_dvd_mul_iff_left hq0).mp hfac
  have hd4 : (q : Int) ∣ (c : Int) - b := by
    obtain ⟨u, hu⟩ := hd3
    exact ⟨u - ((c : Int) - b) * ((k : Int) + j), by linear_combination hu⟩
  have hbeq : (c : Int) - b = 0 := by
    apply dvd_bounded_zero _ _ (by omega) hd4
    · have : (b : Int) < q := by exact_mod_cast hbq
      have h0 : (0 : Int) ≤ (c : Int) := by positivity
      omega
    · have : (c : Int) < q := by exact_mod_cast hcq
      have h0 : (0 : Int) ≤ (b : Int) := by positivity
      omega
  have : (j : Int) = k := by linear_combination hjc - hkc - (q:Int) * hbeq - haeq
  exact_mod_cast this

theorem newProbe_offset_bounds (x : Nat) (si : SizeInfo)
    (hcap : 0 < si.capacity) (hx : x < 2 ^ 64) :
    1 ≤ (newProbe x si).offset ∧ (newProbe x si).offset ≤ si.capacity := by
  unfold newProbe reduceRange
  constructor
  · simp only
    omega
  · simp only
    have hlt : x * si.capacity.toNat / 2 ^ 64 < si.capacity.toNat := by
      rw [Nat.div_lt_iff_lt_mul (by positivity)]
      have h1 : x * si.capacity.toNat ≤ (2 ^ 64 - 1) * si.capacity.toNat :=
        Nat.mul_le_mul_right _ (by omega)
      have h2 : 0 < si.capacity.toNat := by omega
      calc x * si.capacity.toNat ≤ (2 ^ 64 - 1) * si.capacity.toNat := h1
        _ < 2 ^ 64 * si.capacity.toNat := by
            exact (Nat.mul_lt_mul_right h2).mpr (by omega)
        _ = si.capacity.toNat * 2 ^ 64 := by ring
    omega

/-- Offsets of the probe sequence: bounds and the quadratic congruence. -/
theorem probeSeq_spec (q : Nat) (hq : 2 ≤ q) (si : SizeInfo)
    (hc : si.capacity = 8 * q * q) (hn : si.n = 8 * q)
    (x : Nat) (hx : x < 2 ^ 64) (k : Nat) :
    1 ≤ (probeSeq x si k).offset ∧ (probeSeq x si k).offset ≤ si.capacity ∧
    (probeSeq x si k).offset ≡
      (newProbe x si).offset + 8 * q * k * k + 8 * k [ZMOD si.capacity] ∧
    (probeSeq x si k).si = si := by
  have hcap : 0 < si.capacity := by
    rw [hc]
    have : (2:Int) ≤ (q:Int) := by exact_mod_cast hq
    nlinarith
  obtain ⟨h1, h2⟩ := newProbe_offset_bounds x si hcap hx
  obtain ⟨a1, a2, a3, a4, _, _, _⟩ :=
    probe_iterate_spec q hq si hc hn (newProbe x si) rfl h1 h2 rfl k
  exact ⟨a2, a3, a4, a1⟩

/-- Distinct probe steps within the first `q²` steps land on distinct offsets:
the probe visits every group at most once before repeating. -/
theorem probe_visits_once (q : Nat) (hq : 2 ≤ q) (si : SizeInfo)
    (hc : si.capacity = 8 * q * q) (hn : si.n = 8 * q)
    (x : Nat) (hx : x < 2 ^ 64) (j k : Nat) (hj : j < q * q) (hk : k < q * q)
    (he : (probeSeq x si j).offset = (probeSeq x si k).offset) : j = k := by
  obtain ⟨_, _, hmj, _⟩ := probeSeq_spec q hq si hc hn x hx j
  obtain ⟨_, _, hmk, _⟩ := probeSeq_spec q hq si hc hn x hx k
  rw [he] at hmj
  have hcong := hmj.symm.trans hmk
  obtain ⟨t, ht⟩ := Int.modEq_iff_dvd.mp hcong
  apply quad_inj q (by omega) j k hj hk
  refine ⟨t, ?_⟩
  have hcc : si.capacity = 8 * (q:Int) * q := hc
  rw [hcc] at ht
  have h8 : (8:Int) * ((((q:Nat):Int) * k * k + k) - (((q:Nat):Int) * j * j + j))
      = 8 * (((q * q : Nat) : Int) * t) := by
    push_cast at ht ⊢
    linear_combination ht
  exact mul_left_cancel₀ (by norm_num) h8

/-- After exactly `q²` steps (one step per group of the table) the probe
offset returns to its starting value: the schedule repeats. -/
theorem probe_repeats (q : Nat) (hq : 2 ≤ q) (si : SizeInfo)
    (hc : si.capacity = 8 * q * q) (hn : si.n = 8 * q)
    (x : Nat) (hx : x < 2 ^ 64) :
    (probeSeq x si (q * q)).offset = (probeSeq x si 0).offset := by
  obtain ⟨h1, h2, hm, _⟩ := probeSeq_spec q hq si hc hn x hx (q * q)
  obtain ⟨h1', h2', hm0, _⟩ := probeSeq_spec q hq si hc hn x hx 0
  apply repr_unique _ _ _ h1 h2 h1' h2'
  have hcc : si.capacity = 8 * (q:Int) * q := hc
  have hX : (newProbe x si).offset + 8 * (q:Int) * ((q * q : Nat) : Int) * ((q * q : Nat) : Int)
        + 8 * ((q * q : Nat) : Int) ≡
      (newProbe x si).offset + 8 * (q:Int) * ((0 : Nat) : Int) * ((0 : Nat) : Int)
        + 8 * ((0 : Nat) : Int) [ZMOD si.capacity] := by
    rw [Int.modEq_iff_dvd]
    refine ⟨-((q:Int) * q * q + 1), ?_⟩
    rw [hcc]
    push_cast
    ring
  exact hm.trans (hX.trans hm0.symm)

/-- Every slot of the table is covered by some probe window within the first
`q²` probe steps: there are `k < q²` and `d < 8` with `index k d = s`. -/
theorem probe_covers (q : Nat) (hq : 2 ≤ q) (si : SizeInfo)
    (hc : si.capacity = 8 * q * q) (hn : si.n = 8 * q)
    (x : Nat) (hx : x < 2 ^ 64) (s : Int) (hs1 : 1 ≤ s) (hs2 : s ≤ si.capacity) :
    ∃ k : Nat, k < q * q ∧ ∃ d : Int, 0 ≤ d ∧ d < 8 ∧
      (probeSeq x si k).index d = s := by
  have hq1 : 1 ≤ q := by omega
  have hM : 0 < q * q := by positivity
  have hcap : 0 < si.capacity := by
    rw [hc]
    have : (2:Int) ≤ (q:Int) := by exact_mod_cast hq
    nlinarith
  -- surjectivity of the quadratic schedule modulo q²
  have hsurj : ∀ t : Nat, t < q * q → ∃ v : Nat, v < q * q ∧
      (q * v * v + v) % (q * q) = t := by
    have hinj : Function.Injective
        (fun v : Fin (q * q) => (⟨(q * v.val * v.val + v.val) % (q * q),
          Nat.mod_lt _ hM⟩ : Fin (q * q))) := by
      intro a b hab
      have hval : (q * a.val * a.val + a.val) % (q * q)
          = (q * b.val * b.val + b.val) % (q * q) := congrArg Fin.val hab
      have hmod : Nat.ModEq (q * q) (q * a.val * a.val + a.val)
          (q * b.val * b.val + b.val) := hval
      have hdvd := Nat.modEq_iff_dvd.mp hmod
      have hdvd2 : ((q * q : Nat) : Int) ∣
          ((q : Int) * b.val * b.val + b.val) - ((q : Int) * a.val * a.val + a.val) := by
        push_cast at hdvd ⊢
        exact hdvd
      exact Fin.ext (quad_inj q hq1 a.val b.val a.isLt b.isLt hdvd2)
    intro t ht
    obtain ⟨v, hv⟩ := (Finite.injective_iff_surjective.mp hinj) ⟨t, ht⟩
    exact ⟨v.val, v.isLt, congrArg Fin.val hv⟩
  -- decompose the target slot relative to the start offset
  set S := (newProbe x si).offset with hS
  obtain ⟨hS1, hS2⟩ := newProbe_offset_bounds x si hcap hx
  have hr0 : 0 ≤ (s - S) % si.capacity := Int.emod_nonneg _ (by omega)
  have hr1 : (s - S) % si.capacity < si.capacity := Int.emod_lt_of_pos _ hcap
  set r := (s - S) % si.capacity with hrdef
  set rn := r.toNat with hrn
  have hrcast : (rn : Int) = r := Int.toNat_of_nonneg hr0
  have hcc : si.capacity = 8 * (q:Int) * q := hc
  have hrn8 : rn / 8 < q * q := by
    have h1 : rn < 8 * (q * q) := by
      have : (rn : Int) < 8 * (q:Int) * q := by rw [hrcast, hrdef]; rw [hcc] at hr1; exact hr1
      exact_mod_cast (by push_cast; linarith : (rn : Int) < ((8 * (q * q) : Nat) : Int))
    omega
  obtain ⟨v, hvlt, hveq⟩ := hsurj (rn / 8) hrn8
  refine ⟨v, hvlt, ((rn % 8 : Nat) : Int), by positivity, ?_, ?_⟩
  · have : rn % 8 < 8 := Nat.mod_lt _ (by omega)
    exact_mod_cast this
  · obtain ⟨ho1, ho2, hom, _⟩ := probeSeq_spec q hq si hc hn x hx v
    unfold Probe.index
    have hsi : (probeSeq x si v).si = si := (probeSeq_spec q hq si hc hn x hx v).2.2.2
    rw [hsi]
    have hd1 : (0:Int) ≤ ((rn % 8 : Nat) : Int) := by positivity
    have hd2 : ((rn % 8 : Nat) : Int) ≤ si.capacity := by
      have h8 : rn % 8 < 8 := Nat.mod_lt _ (by omega)
      have : ((rn % 8 : Nat) : Int) < 8 := by exact_mod_cast h8
      have hc8 : (8:Int) ≤ si.capacity := by
        rw [hcc]
        have h2q : (2:Int) ≤ (q:Int) := by exact_mod_cast hq
        nlinarith
      omega
    obtain ⟨hb1, hb2⟩ := addModulo_bounds (probeSeq x si v).offset ((rn % 8 : Nat) : Int)
      si.capacity ho1 ho2 hd1 hd2
    apply repr_unique _ _ _ hb1 hb2 hs1 hs2
    -- congruence: addModulo ≡ offset_v + d ≡ S + 8(q v² + v) + d ≡ S + 8 t + d = S + r ≡ s
    obtain ⟨C, hC⟩ := Int.modEq_iff_dvd.mp
      (addModulo_modeq (probeSeq x si v).offset ((rn % 8 : Nat) : Int) si.capacity)
    obtain ⟨A, hA⟩ := Int.modEq_iff_dvd.mp hom
    have hNat : q * v * v + v = q * q * ((q * v * v + v) / (q * q)) + rn / 8 := by
      have h0 := Nat.div_add_mod (q * v * v + v) (q * q)
      omega
    obtain ⟨T, hT⟩ : ∃ T : Int,
        ((q:Int) * v * v + v) = ((q:Int) * q) * T + ((rn / 8 : Nat) : Int) :=
      ⟨(((q * v * v + v) / (q * q) : Nat) : Int), by exact_mod_cast hNat⟩
    have hTr : ((q:Int) * v * v + v) - ((rn / 8 : Nat) : Int) = ((q:Int) * q) * T := by
      linear_combination hT
    have hR : s - S - r = si.capacity * ((s - S) / si.capacity) := by
      rw [hrdef]
      rw [Int.emod_def]
      ring
    have hsplit : (rn : Int) = 8 * ((rn / 8 : Nat) : Int) + ((rn % 8 : Nat) : Int) := by
      omega
    have hr8 : r = 8 * ((rn / 8 : Nat) : Int) + ((rn % 8 : Nat) : Int) := by
      rw [← hrcast]
      exact hsplit
    rw [Int.modEq_iff_dvd]
    refine ⟨(s - S) / si.capacity + A + C - T, ?_⟩
    rw [hcc] at hA hC hR ⊢
    linear_combination hR + hA + hC - 8 * hTr + hr8

theorem getOptsCapacity_ge (req : Int) : 16 ≤ getOptsCapacity req := by
  unfold getOptsCapacity
  split <;> omega

theorem roundSizeUp_capacity (sz : Int) :
    (roundSizeUp sz).capacity
      = ((ceilSqrt (sz.toNat / 8) : Nat) : Int) * (ceilSqrt (sz.toNat / 8) : Nat) * 8 := rfl

theorem roundSizeUp_n (sz : Int) :
    (roundSizeUp sz).n = ((ceilSqrt (sz.toNat / 8) : Nat) : Int) * 8 := rfl

theorem roundSizeUp_valid (sz : Int) (h : 16 ≤ sz) : (roundSizeUp sz).Valid := by
  have h2 : 2 ≤ sz.toNat / 8 := by omega
  refine ⟨ceilSqrt (sz.toNat / 8), two_le_ceilSqrt _ h2, ?_, ?_⟩
  · rw [roundSizeUp_capacity]; ring
  · rw [roundSizeUp_n]; ring

theorem initSizeInfo_valid (req : Int) : (initSizeInfo req).Valid :=
  roundSizeUp_valid _ (getOptsCapacity_ge req)

theorem valid_capacity_ge_32 (si : SizeInfo) (hv : si.Valid) : 32 ≤ si.capacity := by
  obtain ⟨q, hq, hcap, _⟩ := hv
  have hqI : (2:Int) ≤ (q:Int) := by exact_mod_cast hq
  rw [hcap]
  nlinarith

theorem ceilSqrt_eq (k q : Nat) (h1 : k ≤ q * q) (h2 : (q - 1) * (q - 1) < k) :
    ceilSqrt k = q := by
  refine le_antisymm (ceilSqrt_le_of_le_sq _ _ h1) ?_
  by_contra hlt
  push_neg at hlt
  have hle : ceilSqrt k ≤ q - 1 := by omega
  have := ceilSqrt_spec k
  have h3 : ceilSqrt k * ceilSqrt k ≤ (q - 1) * (q - 1) := Nat.mul_le_mul hle hle
  omega

/-- C3 counterexample, part 1: requesting capacity 40 yields table capacity 72,
which is not a power of two. -/
theorem init_capacity_40 : (initSizeInfo 40).capacity = 72 := by
  have h5 : (getOptsCapacity 40).toNat / 8 = 5 := by decide
  rw [initSizeInfo, roundSizeUp_capacity, h5,
    ceilSqrt_eq 5 3 (by norm_num) (by norm_num)]
  norm_num

theorem seventytwo_not_pow_two : ∀ k : Nat, (2:Int) ^ k ≠ 72 := by
  intro k
  by_cases h7 : k < 7
  · interval_cases k <;> decide
  · push_neg at h7
    intro heq
    have hle : (2:Int) ^ 7 ≤ 2 ^ k := pow_le_pow_right₀ (by norm_num) h7
    rw [heq] at hle
    norm_num at hle

/-- C3 counterexample, part 2: requesting capacity 33 yields capacity 32 < 33:
the requested capacity is rounded down, not up. -/
theorem init_capacity_33 : (initSizeInfo 33).capacity = 32 := by
  have h4 : (getOptsCapacity 33).toNat / 8 = 4 := by decide
  rw [initSizeInfo, roundSizeUp_capacity, h4,
    ceilSqrt_eq 4 2 (by norm_num) (by norm_num)]
  norm_num

/-- Grow strictly increases the capacity and preserves the `8·q²` shape. -/
theorem grow_capacity_strict (si : SizeInfo) (hv : si.Valid) :
    (roundSizeUp (growTarget si.capacity)).Valid ∧
    si.capacity < (roundSizeUp (growTarget si.capacity)).capacity := by
  obtain ⟨q, hq, hcap, hn⟩ := hv
  have hqI : (2:Int) ≤ (q:Int) := by exact_mod_cast hq
  have hcapn : si.capacity = ((8 * q * q : Nat) : Int) := by rw [hcap]; push_cast; ring
  have htn : si.capacity.toNat = 8 * q * q := by rw [hcapn]; exact Int.toNat_natCast _
  -- the grow target as a natural number
  have hg : growTarget si.capacity = (((8 * q * q * 50 + 31) / 32 : Nat) : Int) := by
    unfold growTarget
    rw [htn]
  set g : Nat := (8 * q * q * 50 + 31) / 32 with hgdef
  have hgt : (growTarget si.capacity).toNat = g := by rw [hg]; exact Int.toNat_natCast _
  -- q² + 1 ≤ g / 8
  have hdiv : g / 8 = (8 * q * q * 50 + 31) / 256 := by
    rw [hgdef, Nat.div_div_eq_div_mul]
  have hlow : q * q + 1 ≤ g / 8 := by
    rw [hdiv]
    rw [Nat.le_div_iff_mul_le (by norm_num)]
    nlinarith
  have hq4 : 4 ≤ q * q := by nlinarith
  have h16 : 16 ≤ growTarget si.capacity := by
    rw [hg]
    have h16n : 16 ≤ g := by omega
    exact_mod_cast h16n
  refine ⟨roundSizeUp_valid _ h16, ?_⟩
  set q2 : Nat := ceilSqrt ((growTarget si.capacity).toNat / 8) with hq2def
  have hcap2 : (roundSizeUp (growTarget si.capacity)).capacity = (q2 : Int) * q2 * 8 :=
    roundSizeUp_capacity _
  have hup : g / 8 ≤ q2 * q2 := by
    rw [hq2def, hgt]
    exact ceilSqrt_spec _
  have hfin : q * q + 1 ≤ q2 * q2 := le_trans hlow hup
  have hfinI : ((q * q : Nat) : Int) + 1 ≤ ((q2 * q2 : Nat) : Int) := by exact_mod_cast hfin
  rw [hcap2, hcap]
  push_cast at hfinI ⊢
  nlinarith

/-- C3 (counterexample): the claim "the table capacity is a power of two
≥ 16 and construction rounds the requested capacity up (never down) to the
next such power of two" is false on the code: requesting capacity 33 yields
capacity 32 (rounded down, and below the request), and requesting capacity 40
yields capacity 72, which is not a power of two. -/
theorem C3_counterexample :
    (initSizeInfo 33).capacity = 32 ∧ (32 : Int) < 33 ∧
    (initSizeInfo 40).capacity = 72 ∧ (∀ k : Nat, (2:Int) ^ k ≠ 72) :=
  ⟨init_capacity_33, by norm_num, init_capacity_40, seventytwo_not_pow_two⟩

/-- C3 (amended): after construction with any requested capacity, and after
every grow, the table capacity has the form `8·q²` for some `q ≥ 2` — hence it
is always at least 32 ≥ minCapacity = 16 — with
`q = ceil(sqrt(max(req,16) / 8))` at construction (so the capacity is not in
general a power of two, and may round below the request); every grow produces
a capacity of the same form, strictly larger than before. -/
theorem C3_amended_theorem :
    (∀ req : Int, (initSizeInfo req).Valid ∧ 32 ≤ (initSizeInfo req).capacity ∧
      (initSizeInfo req).capacity
        = 8 * ((ceilSqrt ((getOptsCapacity req).toNat / 8) : Nat) : Int)
          * ((ceilSqrt ((getOptsCapacity req).toNat / 8) : Nat) : Int)) ∧
    (∀ si : SizeInfo, si.Valid →
      (roundSizeUp (growTarget si.capacity)).Valid ∧
      si.capacity < (roundSizeUp (growTarget si.capacity)).capacity) := by
  constructor
  · intro req
    refine ⟨initSizeInfo_valid req, valid_capacity_ge_32 _ (initSizeInfo_valid req), ?_⟩
    rw [initSizeInfo, roundSizeUp_capacity]
    ring
  · intro si hv
    exact grow_capacity_strict si hv

/-- Witness for C3 (amended) at the smallest valid size `⟨32, 16⟩`. -/
theorem C3_amended_witness :
    SizeInfo.Valid ⟨32, 16⟩ ∧
    (32 : Int) < (roundSizeUp (growTarget ((⟨32, 16⟩ : SizeInfo)).capacity)).capacity := by
  have hv : SizeInfo.Valid ⟨32, 16⟩ := ⟨2, by norm_num, by norm_num, by norm_num⟩
  exact ⟨hv, (C3_amended_theorem.2 ⟨32, 16⟩ hv).2⟩

/-! ### SWAR bitset primitives (the `bitset`/`match` file of the final draft) -/

/-- `loBits = 0x0101010101010101`. -/
def loBits : Nat := 0x0101010101010101

/-- `hiBits = 0x8080808080808080`. -/
def hiBits : Nat := 0x8080808080808080

/-- metadata byte value `empty = 0`. -/
def metaEmpty : Nat := 0

/-- metadata byte value `deleted = 2` (tombstone). -/
def metaDeleted : Nat := 2

/-- `setMask = 0x80`. -/
def setMask : Nat := 128

/-- uint64 subtraction `a - b` (wrapping), for `a b < 2^64`. -/
def sub64 (a b : Nat) : Nat := (a + 2 ^ 64 - b) % 2 ^ 64

/-- uint64 complement `^a`, for `a < 2^64`. -/
def compl64 (a : Nat) : Nat := a ^^^ (2 ^ 64 - 1)

/-- `matchZero`: `(s - loBits) & ^s & hiBits`. -/
def matchZero (s : Nat) : Nat := sub64 s loBits &&& compl64 s &&& hiBits

/-- `matchEmpty` (same formula as `matchZero` in the source). -/
def matchEmpty (s : Nat) : Nat := sub64 s loBits &&& compl64 s &&& hiBits

/-- `matchByte`: `(s ^ loBits*b).matchZero()`. -/
def matchByte (s b : Nat) : Nat := matchZero (s ^^^ loBits * b % 2 ^ 64)

/-- `matchNotSet`: `(s & hiBits) ^ hiBits`. -/
def matchNotSet (s : Nat) : Nat := (s &&& hiBits) ^^^ hiBits

/-- `matchSet`: `s & hiBits`. -/
def matchSet (s : Nat) : Nat := s &&& hiBits

/-- `markDeletedAsEmptyAndSetAsDeleted`: `s ^= deleted; s & hiBits / (setMask/deleted)`.
Go's `&` and `/` share precedence and associate left, so the store is
`((s ^ deleted) & hiBits) / (setMask / deleted)`: each set byte (`0x80` bit)
becomes the tombstone value `2`, every other byte becomes `0`. -/
def markDeletedAsEmptyAndSetAsDeleted (s : Nat) : Nat :=
  ((s ^^^ metaDeleted) &&& hiBits) / (setMask / metaDeleted)

/-- `bits.TrailingZeros64`: index of the least set bit, 64 when none. -/
def tz64 (m : Nat) : Nat := (List.range 64).findIdx (fun i => m.testBit i)

/-- `bits.LeadingZeros64`: number of leading zero bits among the low 64. -/
def lz64 (m : Nat) : Nat := (List.range 64).findIdx (fun i => m.testBit (63 - i))

/-- `match.first`: `TrailingZeros64 >> 3`. -/
def matchFirst (m : Nat) : Nat := tz64 m >>> 3

/-- `match.firstFromEnd`: `LeadingZeros64 >> 3`. -/
def matchFirstFromEnd (m : Nat) : Nat := lz64 m >>> 3

/-- `match.next`, the returned byte offset: `TrailingZeros64(m) >> 3`. -/
def matchNextIdx (m : Nat) : Nat := tz64 m >>> 3

/-- `match.next`, the updated mask: `m &= ^(1 << n)`. -/
def matchNextMask (m : Nat) : Nat := m &&& compl64 (1 <<< tz64 m)

/-- Little-endian value of a list of bytes (the uint64 group load
`binary.LittleEndian.Uint64`). -/
def wordOf : List Nat → Nat
  | [] => 0
  | b :: bs => b + 256 * wordOf bs

theorem wordOf_lt (bs : List Nat) (hb : ∀ b ∈ bs, b < 256) :
    wordOf bs < 2 ^ (8 * bs.length) := by
  induction bs with
  | nil => simp [wordOf]
  | cons b rest ih =>
    have hb0 : b < 256 := hb b (List.mem_cons_self _ _)
    have ih2 := ih (fun x hx => hb x (List.mem_cons_of_mem _ hx))
    simp only [wordOf, List.length_cons]
    have h : 8 * (rest.length + 1) = 8 * rest.length + 8 := by ring
    rw [h, pow_add]
    have : (256 : Nat) = 2 ^ 8 := by norm_num
    nlinarith [ih2]

theorem split_and (b c w v : Nat) (hb : b < 256) (hc : c < 256) :
    (b + 256 * w) &&& (c + 256 * v) = (b &&& c) + 256 * (w &&& v) := by
  have hc8 : c < 2 ^ 8 := by omega
  have hbc : b &&& c < 256 := by
    have h := Nat.and_lt_two_pow b hc8
    omega
  have e1 : b + 256 * w = 2 ^ 8 * w + b := by omega
  have e2 : c + 256 * v = 2 ^ 8 * v + c := by omega
  have e3 : (b &&& c) + 256 * (w &&& v) = 2 ^ 8 * (w &&& v) + (b &&& c) := by omega
  rw [e1, e2, e3]
  apply Nat.eq_of_testBit_eq
  intro j
  rw [Nat.testBit_and, Nat.testBit_mul_pow_two_add _ hb, Nat.testBit_mul_pow_two_add _ hc,
    Nat.testBit_mul_pow_two_add _ hbc]
  by_cases hj : j < 8
  · simp [hj, Nat.testBit_and]
  · simp [hj, Nat.testBit_and]

theorem split_xor (b c w v : Nat) (hb : b < 256) (hc : c < 256) :
    (b + 256 * w) ^^^ (c + 256 * v) = (b ^^^ c) + 256 * (w ^^^ v) := by
  have hb8 : b < 2 ^ 8 := by omega
  have hc8 : c < 2 ^ 8 := by omega
  have hbc : b ^^^ c < 256 := by
    have h := Nat.xor_lt_two_pow hb8 hc8
    omega
  have e1 : b + 256 * w = 2 ^ 8 * w + b := by omega
  have e2 : c + 256 * v = 2 ^ 8 * v + c := by omega
  have e3 : (b ^^^ c) + 256 * (w ^^^ v) = 2 ^ 8 * (w ^^^ v) + (b ^^^ c) := by omega
  rw [e1, e2, e3]
  apply Nat.eq_of_testBit_eq
  intro j
  rw [Nat.testBit_xor, Nat.testBit_mul_pow_two_add _ hb, Nat.testBit_mul_pow_two_add _ hc,
    Nat.testBit_mul_pow_two_add _ hbc]
  by_cases hj : j < 8
  · simp [hj, Nat.testBit_xor]
  · simp [hj, Nat.testBit_xor]

theorem split_or (b c w v : Nat) (hb : b < 256) (hc : c < 256) :
    (b + 256 * w) ||| (c + 256 * v) = (b ||| c) + 256 * (w ||| v) := by
  have hb8 : b < 2 ^ 8 := by omega
  have hc8 : c < 2 ^ 8 := by omega
  have hbc : b ||| c < 256 := by
    have h := Nat.or_lt_two_pow hb8 hc8
    omega
  have e1 : b + 256 * w = 2 ^ 8 * w + b := by omega
  have e2 : c + 256 * v = 2 ^ 8 * v + c := by omega
  have e3 : (b ||| c) + 256 * (w ||| v) = 2 ^ 8 * (w ||| v) + (b ||| c) := by omega
  rw [e1, e2, e3]
  apply Nat.eq_of_testBit_eq
  intro j
  rw [Nat.testBit_or, Nat.testBit_mul_pow_two_add _ hb, Nat.testBit_mul_pow_two_add _ hc,
    Nat.testBit_mul_pow_two_add _ hbc]
  by_cases hj : j < 8
  · simp [hj, Nat.testBit_or]
  · simp [hj, Nat.testBit_or]

theorem wordOf_and (bs cs : List Nat) (hlen : bs.length = cs.length)
    (hb : ∀ b ∈ bs, b < 256) (hc : ∀ c ∈ cs, c < 256) :
    wordOf bs &&& wordOf cs = wordOf (List.zipWith (· &&& ·) bs cs) := by
  induction bs generalizing cs with
  | nil =>
    cases cs with
    | nil => simp [wordOf]
    | cons c cs2 => simp at hlen
  | cons b rest ih =>
    cases cs with
    | nil => simp at hlen
    | cons c cs2 =>
      simp only [wordOf, List.zipWith]
      rw [split_and b c _ _ (hb b (List.mem_cons_self _ _)) (hc c (List.mem_cons_self _ _)),
        ih cs2 (by simpa using hlen) (fun x hx => hb x (List.mem_cons_of_mem _ hx))
          (fun x hx => hc x (List.mem_cons_of_mem _ hx))]

theorem wordOf_xor (bs cs : List Nat) (hlen : bs.length = cs.length)
    (hb : ∀ b ∈ bs, b < 256) (hc : ∀ c ∈ cs, c < 256) :
    wordOf bs ^^^ wordOf cs = wordOf (List.zipWith (· ^^^ ·) bs cs) := by
  induction bs generalizing cs with
  | nil =>
    cases cs with
    | nil => simp [wordOf]
    | cons c cs2 => simp at hlen
  | cons b rest ih =>
    cases cs with
    | nil => simp at hlen
    | cons c cs2 =>
      simp only [wordOf, List.zipWith]
      rw [split_xor b c _ _ (hb b (List.mem_cons_self _ _)) (hc c (List.mem_cons_self _ _)),
        ih cs2 (by simpa using hlen) (fun x hx => hb x (List.mem_cons_of_mem _ hx))
          (fun x hx => hc x (List.mem_cons_of_mem _ hx))]

theorem mod_peel (u Y N : Nat) (hu : u < 256) (hY : Y < 2 * N) (hN : 0 < N) :
    (u + 256 * Y) % (256 * N) = u + 256 * (Y % N) := by
  rcases Nat.lt_or_ge Y N with h | h
  · rw [Nat.mod_eq_of_lt (by nlinarith), Nat.mod_eq_of_lt h]
  · have h2 : Y % N = Y - N := by
      rw [Nat.mod_eq_sub_mod h, Nat.mod_eq_of_lt (by omega)]
    rw [h2]
    have hh : u + 256 * Y = (u + 256 * (Y - N)) + 256 * N := by
      have : 256 * Y = 256 * (Y - N) + 256 * N := by
        rw [← Nat.mul_add]
        congr 1
        omega
      omega
    rw [hh, Nat.add_mod_right, Nat.mod_eq_of_lt]
    have : Y - N < N := by omega
    nlinarith

set_option maxRecDepth 10000 in
theorem headFlag : ∀ b : Nat, b < 256 → ∀ t : Nat, t ≤ 1 →
    ((if b < 1 + t then 256 + b - 1 - t else b - 1 - t) &&& (b ^^^ 255) &&& 128)
      = (if b < 1 + t then 128 else 0) := by decide

/-- Per-byte flags of the zero-byte detector `(x - loBits) & ^x & hiBits`,
including the false-positive behaviour on bytes equal to 1 under borrow:
flag = 0x80 exactly when `b < 1 + borrow`. -/
def detFlags : List Nat → Nat → List Nat
  | [], _ => []
  | b :: bs, t => (if b < 1 + t then 128 else 0) :: detFlags bs (if b < 1 + t then 1 else 0)

theorem detector_spec (bs : List Nat) (t : Nat) (ht : t ≤ 1)
    (hb : ∀ b ∈ bs, b < 256) :
    ((wordOf bs + 2 ^ (8 * bs.length) - (wordOf (List.replicate bs.length 1) + t))
        % 2 ^ (8 * bs.length))
      &&& (wordOf bs ^^^ (2 ^ (8 * bs.length) - 1))
      &&& wordOf (List.replicate bs.length 128)
    = wordOf (detFlags bs t) := by
  induction bs generalizing t with
  | nil =>
    simp [wordOf, detFlags]
  | cons b rest ih =>
    have hb0 : b < 256 := hb b (List.mem_cons_self _ _)
    have hbr : ∀ x ∈ rest, x < 256 := fun x hx => hb x (List.mem_cons_of_mem _ hx)
    set m := rest.length with hm
    set N : Nat := 2 ^ (8 * m) with hN
    have hNpos : 0 < N := by positivity
    set R : Nat := wordOf rest with hR
    set L : Nat := wordOf (List.replicate m 1) with hL
    have hRN : R < N := by
      rw [hR, hN, hm]
      exact wordOf_lt rest hbr
    have hLN : L < N := by
      rw [hL, hN, hm]
      have := wordOf_lt (List.replicate m 1) (by simp)
      simpa using this
    have hpow : 2 ^ (8 * (b :: rest).length) = 256 * N := by
      rw [hN, hm]
      simp only [List.length_cons]
      rw [show 8 * (rest.length + 1) = 8 * rest.length + 8 by ring, pow_add]
      ring_nf
    have hword : wordOf (b :: rest) = b + 256 * R := rfl
    have hlo : wordOf (List.replicate (b :: rest).length 1) = 1 + 256 * L := by
      simp only [List.length_cons, List.replicate, wordOf]
    have hhi : wordOf (List.replicate (b :: rest).length 128)
        = 128 + 256 * wordOf (List.replicate m 128) := by
      simp only [List.length_cons, List.replicate, wordOf]
    have hcompl : 2 ^ (8 * (b :: rest).length) - 1 = 255 + 256 * (N - 1) := by
      rw [hpow]
      omega
    -- the subtracted word, split into head byte and tail with borrow
    set tb : Nat := if b < 1 + t then 1 else 0 with htb
    set u : Nat := if b < 1 + t then 256 + b - 1 - t else b - 1 - t with hu
    have hu256 : u < 256 := by
      rw [hu]
      split <;> omega
    have hsub : wordOf (b :: rest) + 2 ^ (8 * (b :: rest).length)
        - (wordOf (List.replicate (b :: rest).length 1) + t)
        = u + 256 * (R + N - (L + tb)) := by
      rw [hword, hlo, hpow, hu, htb]
      split <;> omega
    have hYlt : R + N - (L + tb) < 2 * N := by omega
    have hmod : (wordOf (b :: rest) + 2 ^ (8 * (b :: rest).length)
        - (wordOf (List.replicate (b :: rest).length 1) + t)) % 2 ^ (8 * (b :: rest).length)
        = u + 256 * ((R + N - (L + tb)) % N) := by
      rw [hsub, hpow]
      exact mod_peel u _ N hu256 hYlt hNpos
    have hcomplw : wordOf (b :: rest) ^^^ (2 ^ (8 * (b :: rest).length) - 1)
        = (b ^^^ 255) + 256 * (R ^^^ (N - 1)) := by
      rw [hword, hcompl]
      exact split_xor b 255 R (N - 1) hb0 (by norm_num)
    have hxb : b ^^^ 255 < 256 := by
      have h1 : b < 2 ^ 8 := by omega
      have h2 : (255 : Nat) < 2 ^ 8 := by norm_num
      have h := Nat.xor_lt_two_pow h1 h2
      omega
    have hsmod : (R + N - (L + tb)) % N < N := Nat.mod_lt _ hNpos
    rw [hmod, hcomplw, hhi]
    rw [split_and u (b ^^^ 255) _ _ hu256 hxb]
    rw [split_and _ 128 _ _ (Nat.and_lt_two_pow u (by omega : b ^^^ 255 < 2 ^ 8)) (by norm_num)]
    have htail := ih tb (by rw [htb]; split <;> omega) hbr
    rw [htail]
    have hhead : (u &&& (b ^^^ 255) &&& 128) = (if b < 1 + t then 128 else 0) := by
      rw [hu]
      exact headFlag b hb0 t ht
    rw [hhead]
    rfl

/-! ### The `Map` implementation (final draft: `Map`/`element`, lazy `Init`,
`Set`/`Get`/`Delete`/`insert`/`find`/`del`/`rehashOrGrow`/`rehashInPlace`).
Go `int` fields are `Int`; metadata bytes are `Nat` values `< 256`;
Go slices are `Array`s (out-of-range reads/writes would panic in Go and are
exercised only in-bounds by the code; they are modelled by `getD`/`setD`,
except in `MRU`, whose unguarded `m.elms[0]` read on a zero-value map is
modelled by an `Option` result).  Loops are modelled with explicit fuel;
fuel is always chosen so that exhaustion (`none`) corresponds exactly to a
Go loop that never terminates (the probe scan repeats with period
`numGroups`, proved above). -/

/-- `element[K, V]` from the source. -/
structure Elem (K V : Type) where
  key : K
  value : V
  prev : Int
  next : Int
deriving Repr

/-- The zero value of `element[K, V]` (fresh slot array contents). -/
def zeroElem {K V : Type} [Inhabited K] [Inhabited V] : Elem K V :=
  ⟨default, default, 0, 0⟩

/-- `Map[K, V]` from the source (the `sizeInfo` is embedded). -/
structure Map (K V : Type) where
  hash : K → Nat
  meta : Array Nat
  elms : Array (Elem K V)
  si : SizeInfo
  active : Int
  deleted : Int

variable {K V : Type} [DecidableEq K] [Inhabited K] [Inhabited V]

/-- Read of `m.elms[i]`. -/
def Map.elmAt (m : Map K V) (i : Int) : Elem K V :=
  m.elms.getD i.toNat zeroElem

/-- Write of `m.elms[i]`. -/
def Map.setElm (m : Map K V) (i : Int) (e : Elem K V) : Map K V :=
  { m with elms := m.elms.setD i.toNat e }

/-- Read of `m.meta[i]`. -/
def Map.metaAt (m : Map K V) (i : Int) : Nat :=
  m.meta.getD i.toNat 0

/-- The 8-byte group load `newBitset(&m.meta[i])`, little-endian. -/
def groupBytes (meta : Array Nat) (i : Nat) : List Nat :=
  (List.range 8).map (fun k => meta.getD (i + k) 0)

/-- `newBitset` as a 64-bit word. -/
def newBitset (meta : Array Nat) (i : Nat) : Nat :=
  wordOf (groupBytes meta i)

/-- `m.probe(hash) = newProbe(h1(hash), &m.sizeInfo)`. -/
def Map.probe (m : Map K V) (hash : Nat) : Probe :=
  newProbe (h1 hash) m.si

/-- `needRehashOrGrow`: `capacity - active - deleted < capacity >> 3`. -/
def Map.needRehashOrGrow (m : Map K V) : Prop :=
  m.si.capacity - m.active - m.deleted < ((m.si.capacity.toNat >>> 3 : Nat) : Int)

instance (m : Map K V) : Decidable m.needRehashOrGrow := by
  unfold Map.needRehashOrGrow
  infer_instance

/-- `setH2`: write the metadata byte and its mirror (`index < groupSize`). -/
def Map.setH2 (m : Map K V) (index : Int) (v : Nat) : Map K V :=
  let meta1 := m.meta.setD index.toNat v
  let meta2 := if index < 8 then meta1.setD (index + m.si.capacity).toNat v else meta1
  { m with meta := meta2 }

/-- `updateH2`: `deleted -= *c >> 1`, then write byte and mirror. -/
def Map.updateH2 (m : Map K V) (index : Int) (v : Nat) : Map K V :=
  let c := m.meta.getD index.toNat 0
  let m1 : Map K V := { m with deleted := m.deleted - ((c >>> 1 : Nat) : Int) }
  m1.setH2 index v

/-- `unlink(it)` for `it = &m.elms[i]`. -/
def Map.unlink (m : Map K V) (i : Int) : Map K V :=
  let nxt := (m.elmAt i).next
  let prv := (m.elmAt i).prev
  let m1 := m.setElm prv { m.elmAt prv with next := nxt }
  m1.setElm nxt { m1.elmAt nxt with prev := prv }

/-- `toFront(it, i)`. -/
def Map.toFront (m : Map K V) (i : Int) : Map K V :=
  let nxt := (m.elmAt 0).next
  let m1 := m.setElm i { m.elmAt i with prev := 0, next := nxt }
  let m2 := m1.setElm 0 { m1.elmAt 0 with next := i }
  m2.setElm nxt { m2.elmAt nxt with prev := i }

/-- `lru()`: `0` when the slice is empty, else `m.elms[0].prev`. -/
def Map.lru (m : Map K V) : Int :=
  if m.elms.size < 1 then 0 else (m.elmAt 0).prev

/-- `resize(si)`: fresh slot and metadata arrays, counters reset. -/
def Map.resize (m : Map K V) (si : SizeInfo) : Map K V :=
  { m with
    si := si
    elms := Array.mkArray (si.capacity.toNat + 1) zeroElem
    meta := Array.mkArray (si.capacity.toNat + 1 + 8 - 1) 0
    active := 0
    deleted := 0 }

/-- `Init` with no options (used by the lazy initialization in `find`):
capacity 0 is clamped to `minCapacity = 16` by `getOpts`. -/
def Map.lazyInit (m : Map K V) : Map K V :=
  m.resize (initSizeInfo 0)

/-- The number of probe steps after which the probe sequence provably
repeats; used as fuel for the probe loops. -/
def Map.probeFuel (m : Map K V) : Nat := numGroups m.si

/-- The inner candidate scan of `find`:
`for mb := s.matchByte(h2); mb != 0; { i := p.index(mb.next()); if key match return }`.
Each step clears one bit, so fuel 64 makes this total. -/
def Map.scanMask (m : Map K V) (key : K) (p : Probe) : Nat → Nat → Option Int
  | _, 0 => none
  | mb, fuel+1 =>
    if mb = 0 then none
    else
      let i := p.index ((matchNextIdx mb : Nat) : Int)
      if (m.elmAt i).key = key then some i
      else m.scanMask key p (matchNextMask mb) fuel

/-- The early-return shape of the probe loop of `find`: if the candidate
scan found an index, return it, otherwise continue with `b`. -/
def foundOr (o : Option Int) (b : Option Int) : Option Int :=
  match o with
  | some i => some i
  | none => b

/-- The outer probe loop of `find`.  `none` models a Go loop that runs
forever (possible only on tables violating the invariants). -/
def Map.findLoop (m : Map K V) (key : K) (h2v : Nat) (p : Probe) (fuel : Nat) :
    Option Int :=
  Nat.rec (motive := fun _ => Probe → Option Int)
    (fun _ => none)
    (fun _ ih p =>
      let s := newBitset m.meta p.offset.toNat
      foundOr (m.scanMask key p (matchByte s h2v) 64)
        (if matchEmpty s ≠ 0 then some 0
         else ih p.next))
    fuel p

/-- `find(key)`: lazy `Init` when `capacity == 0`, then the probe loop.
Returns the (possibly initialized) map along with `(hash, index)`. -/
def Map.find? (m : Map K V) (key : K) : Option (Nat × Int × Map K V) :=
  let m := if m.si.capacity = 0 then m.lazyInit else m
  let hash := m.hash key
  match m.findLoop key (h2 hash) (m.probe hash) m.probeFuel with
  | some i => some (hash, i, m)
  | none => none

/-- The `findFirstNotSet` loop (also inlined in `insert` and
`rehashInPlace`). -/
def Map.findFirstNotSetIdx (m : Map K V) (p : Probe) (fuel : Nat) : Option Int :=
  Nat.rec (motive := fun _ => Probe → Option Int)
    (fun _ => none)
    (fun _ ih p =>
      let e := matchNotSet (newBitset m.meta p.offset.toNat)
      if e ≠ 0 then some (p.index ((matchNextIdx e : Nat) : Int))
      else ih p.next)
    fuel p

/-- `move(target, i)` from `rehashInPlace`: copy the element, re-point its
list neighbours at the new slot, zero the source payload. -/
def Map.move (m : Map K V) (target i : Int) : Map K V :=
  let s := m.elmAt i
  let m1 := m.setElm target s
  let m2 := m1.setElm s.prev { m1.elmAt s.prev with next := target }
  let m3 := m2.setElm s.next { m2.elmAt s.next with prev := target }
  m3.setElm i { m3.elmAt i with key := default, value := default }

/-- `swap(i, j)`, exactly as written in the source, including the
`pi.next == j` branch whose last two statements write
`pi.next = i; pj.prev = j` (self-references) instead of re-linking `j`
before `i` — see the counterexample below. -/
def Map.swap (m : Map K V) (i j : Int) : Map K V :=
  let ei := m.elmAt i
  let ej := m.elmAt j
  let m1 := m.setElm i { ei with key := ej.key, value := ej.value }
  let m2 := m1.setElm j { (m1.elmAt j) with key := ei.key, value := ei.value }
  if (m2.elmAt i).next = j then
    let m3 := m2.setElm ((m2.elmAt i).prev) { m2.elmAt ((m2.elmAt i).prev) with next := j }
    let m4 := m3.setElm ((m3.elmAt j).next) { m3.elmAt ((m3.elmAt j).next) with prev := i }
    let m5 := m4.setElm j { m4.elmAt j with prev := (m4.elmAt i).prev }
    let m6 := m5.setElm i { m5.elmAt i with next := (m5.elmAt j).next }
    let m7 := m6.setElm i { m6.elmAt i with next := i }
    m7.setElm j { m7.elmAt j with prev := j }
  else if (m2.elmAt j).next = i then
    let m3 := m2.setElm ((m2.elmAt j).prev) { m2.elmAt ((m2.elmAt j).prev) with next := i }
    let m4 := m3.setElm ((m3.elmAt i).next) { m3.elmAt ((m3.elmAt i).next) with prev := j }
    let m5 := m4.setElm i { m4.elmAt i with prev := (m4.elmAt j).prev }
    let m6 := m5.setElm j { m5.elmAt j with next := (m5.elmAt i).next }
    let m7 := m6.setElm i { m6.elmAt i with next := j }
    m7.setElm j { m7.elmAt j with prev := i }
  else
    let pi0 := m2.elmAt i
    let pj0 := m2.elmAt j
    let m3 := (m2.setElm i { pi0 with prev := pj0.prev, next := pj0.next }).setElm j
      { pj0 with prev := pi0.prev, next := pi0.next }
    let m4 := m3.setElm ((m3.elmAt i).prev) { m3.elmAt ((m3.elmAt i).prev) with next := i }
    let m5 := m4.setElm ((m4.elmAt i).next) { m4.elmAt ((m4.elmAt i).next) with prev := i }
    let m6 := m5.setElm ((m5.elmAt j).prev) { m5.elmAt ((m5.elmAt j).prev) with next := j }
    m6.setElm ((m6.elmAt j).next) { m6.elmAt ((m6.elmAt j).next) with prev := j }

/-- Write the 8 bytes of a 64-bit word back to the metadata array
(little-endian), as the `uint64` store in
`markDeletedAsEmptyAndSetAsDeleted` does through its pointer. -/
def writeWord (meta : Array Nat) (i : Nat) (w : Nat) : Array Nat :=
  (List.range 8).foldl (fun a k => a.setD (i + k) ((w >>> (8 * k)) % 256)) meta

/-- The marking pass of `rehashInPlace`:
`for i := 1; i < len(meta)-groupSize; i += groupSize { markDeletedAsEmptyAndSetAsDeleted(&meta[i]) }`. -/
def markPass (meta : Array Nat) (groups : Nat) : Array Nat :=
  (List.range groups).foldl
    (fun a g =>
      let i := 1 + 8 * g
      writeWord a i (markDeletedAsEmptyAndSetAsDeleted (newBitset a i))) meta

/-- `copy(m.meta[m.capacity+1:], m.meta[1:groupSize])`: refresh the mirror. -/
def mirrorCopy (meta : Array Nat) (cap : Nat) : Array Nat :=
  (List.range 7).foldl (fun a j => a.setD (cap + 1 + j) (a.getD (1 + j) 0)) meta

/-- One iteration of the `rehashInPlace` sweep plus the loop's step
`i = m.elms[i].prev`, with fuel.  `none` models non-termination. -/
def Map.rehashLoop (m : Map K V) : Int → Nat → Option (Map K V)
  | i, 0 => if i = 0 then some m else none
  | i, fuel+1 =>
    if i = 0 then some m
    else
      let it := m.elmAt i
      let hash := m.hash it.key
      let p := m.probe hash
      match m.findFirstNotSetIdx p m.probeFuel with
      | none => none
      | some target =>
        if (p.distance i).toNat / 8 = (p.distance target).toNat / 8 then
          let m1 := m.setH2 i (h2 hash)
          m1.rehashLoop ((m1.elmAt i).prev) fuel
        else if m.metaAt target = metaEmpty then
          let m1 := m.setH2 i metaEmpty
          let m2 := m1.setH2 target (h2 hash)
          let m3 := m2.move target i
          m3.rehashLoop ((m3.elmAt i).prev) fuel
        else
          let m1 := m.setH2 target (h2 hash)
          let m2 := m1.swap i target
          m2.rehashLoop ((m2.elmAt target).prev) fuel

/-- `rehashInPlace`: mark pass, mirror refresh, sweep, `deleted = 0`. -/
def Map.rehashInPlace? (m : Map K V) : Option (Map K V) :=
  let meta1 := markPass m.meta (m.si.capacity.toNat / 8)
  let meta2 := mirrorCopy meta1 m.si.capacity.toNat
  let m1 : Map K V := { m with meta := meta2 }
  match m1.rehashLoop m1.lru (m1.elms.size + 1) with
  | none => none
  | some m2 => some { m2 with deleted := 0 }

/-- `insert` without the grow check (the body after the
`needRehashOrGrow` test): probe for the first not-set slot, bump `active`,
write metadata via `updateH2`, store the element, move it to the front. -/
def Map.insertNoGrow? (m : Map K V) (hash : Nat) (key : K) (value : V) :
    Option (Map K V) :=
  match m.findFirstNotSetIdx (m.probe hash) m.probeFuel with
  | none => none
  | some i =>
    let m1 : Map K V := { m with active := m.active + 1 }
    let m2 := m1.updateH2 i (h2 hash)
    let m3 := m2.setElm i { m2.elmAt i with key := key, value := value }
    some (m3.toFront i)

/-- The reinsertion loop of the grow branch of `rehashOrGrow`:
`for i := src[0].prev; i != 0; { it := &src[i]; m.insert(...); i = it.prev }`,
parameterized by the insert function (to tie the recursion through
`insert`/`rehashOrGrow` below). -/
def Map.growLoopWith (ins : Map K V → Nat → K → V → Option (Map K V))
    (src : Array (Elem K V)) : Map K V → Int → Nat → Option (Map K V)
  | m, i, 0 => if i = 0 then some m else none
  | m, i, fuel+1 =>
    if i = 0 then some m
    else
      let it := src.getD i.toNat zeroElem
      match ins m (m.hash it.key) it.key it.value with
      | none => none
      | some m' => Map.growLoopWith ins src m' it.prev fuel

/-- `rehashOrGrow`, parameterized by the insert function used for the
reinsertion loop of the grow branch. -/
def Map.rehashOrGrowWith (ins : Map K V → Nat → K → V → Option (Map K V))
    (m : Map K V) : Option (Map K V) :=
  if m.active * 32 ≤ m.si.capacity * 25 then m.rehashInPlace?
  else
    let src := m.elms
    let m1 := m.resize (roundSizeUp (growTarget m.si.capacity))
    Map.growLoopWith ins src m1 (src.getD 0 zeroElem).prev src.size

/-- `insert(hash, key, value)` with rehash recursion depth `d` (the Go code
recurses through `insert → rehashOrGrow → insert`; in every execution
reachable from the public API the nested inserts never trigger another
rehash, so any positive depth gives Go's behaviour). -/
def Map.insertFuel? : Nat → Map K V → Nat → K → V → Option (Map K V)
  | 0, _, _, _, _ => none
  | d+1, m, hash, key, value =>
    if m.needRehashOrGrow then
      match m.rehashOrGrowWith (fun m2 h k v => Map.insertFuel? d m2 h k v) with
      | none => none
      | some m' => m'.insertNoGrow? (m'.hash key) key value
    else m.insertNoGrow? hash key value

/-- `insert`: recursion depth 2 covers every execution reachable from the
public API (a nested rehash inside a grow never happens; proved below for
the states the claims range over). -/
def Map.insert? (m : Map K V) (hash : Nat) (key : K) (value : V) :
    Option (Map K V) :=
  m.insertFuel? 2 hash key value

/-- `rehashOrGrow` as called from `insert` (depth 1 for nested inserts). -/
def Map.rehashOrGrow? (m : Map K V) : Option (Map K V) :=
  m.rehashOrGrowWith (fun m2 h k v => Map.insertFuel? 1 m2 h k v)

/-- `del(i)`: unlink, zero the payload, decrement `active`, then mark the
slot empty when the probe-window test passes, tombstone otherwise. -/
def Map.del (m : Map K V) (i : Int) : Map K V :=
  let m1 := m.unlink i
  let m2 := m1.setElm i { m1.elmAt i with key := default, value := default }
  let m3 : Map K V := { m2 with active := m2.active - 1 }
  let afterM := matchEmpty (newBitset m3.meta i.toNat)
  let beforeM := matchEmpty (newBitset m3.meta (subModulo i groupSize m3.si.capacity).toNat)
  if afterM ≠ 0 ∧ beforeM ≠ 0 ∧ matchFirstFromEnd beforeM + matchFirst afterM < 8 then
    m3.setH2 i metaEmpty
  else
    let m4 := m3.setH2 i metaDeleted
    { m4 with deleted := m4.deleted + 1 }

/-- `Set(key, value)`. -/
def Map.set? (m : Map K V) (key : K) (value : V) :
    Option (V × Bool × Map K V) :=
  match m.find? key with
  | none => none
  | some (hash, i, m) =>
    if i ≠ 0 then
      let m1 := (m.unlink i).toFront i
      let prev := (m1.elmAt i).value
      let m2 := m1.setElm i { m1.elmAt i with value := value }
      some (prev, true, m2)
    else
      match m.insert? hash key value with
      | none => none
      | some m' => some (default, false, m')

/-- `Get(key)`. -/
def Map.get? (m : Map K V) (key : K) : Option (V × Bool × Map K V) :=
  match m.find? key with
  | none => none
  | some (_, i, m) =>
    if i ≠ 0 then
      let m1 := (m.unlink i).toFront i
      some ((m1.elmAt i).value, true, m1)
    else
      some (default, false, m)

/-- `Delete(key)`. -/
def Map.delete? (m : Map K V) (key : K) : Option (V × Bool × Map K V) :=
  match m.find? key with
  | none => none
  | some (_, i, m) =>
    if i ≠ 0 then
      let v := (m.elmAt i).value
      some (v, true, m.del i)
    else
      some (default, false, m)

/-- `DeleteLRU()`. -/
def Map.deleteLRU (m : Map K V) : K × V × Map K V :=
  let i := m.lru
  if i = 0 then (default, default, m)
  else ((m.elmAt i).key, (m.elmAt i).value, m.del i)

/-- `LRU()`: peek at the least recently used entry (guarded by `lru()`). -/
def Map.LRU (m : Map K V) : K × V :=
  let i := m.lru
  if i = 0 then (default, default)
  else ((m.elmAt i).key, (m.elmAt i).value)

/-- `MRU()`: the source reads `m.elms[0].next` without any length guard, so
on a zero-value `Map` (empty `elms` slice) Go panics with an index
out of range; this is modelled by `none`. -/
def Map.MRU? (m : Map K V) : Option (K × V) :=
  if m.elms.size = 0 then none
  else
    let i := (m.elmAt 0).next
    if i = 0 then some (default, default)
    else some ((m.elmAt i).key, (m.elmAt i).value)

/-- `Len()`. -/
def Map.len (m : Map K V) : Int := m.active

/-- `Capacity()`. -/
def Map.capacityFn (m : Map K V) : Int := m.si.capacity

/-- The walk shared by the `Keys`/`Values`/`All` iterators: start at
`m.lru()` and follow `prev` toward the MRU end, collecting slot indices.
Fuel `m.elms.size` suffices for any cycle-free list. -/
def Map.walk (m : Map K V) : Int → Nat → List Int
  | _, 0 => []
  | i, fuel+1 => if i = 0 then [] else i :: m.walk ((m.elmAt i).prev) fuel

/-- The `Keys()` iterator as a list (lru first). -/
def Map.keys (m : Map K V) : List K :=
  (m.walk m.lru m.elms.size).map (fun i => (m.elmAt i).key)

/-- The `Values()` iterator as a list (lru first). -/
def Map.values (m : Map K V) : List V :=
  (m.walk m.lru m.elms.size).map (fun i => (m.elmAt i).value)

/-- The `All()` iterator as a list of pairs (lru first). -/
def Map.entries (m : Map K V) : List (K × V) :=
  (m.walk m.lru m.elms.size).map (fun i => ((m.elmAt i).key, (m.elmAt i).value))

/-- `NewMap` with a given hasher and the default capacity:
`var m Map; m.Init(opts...)` with only a hasher option. -/
def newMap (hash : K → Nat) : Map K V :=
  Map.resize { hash := hash, meta := #[], elms := #[], si := ⟨0, 0⟩, active := 0, deleted := 0 }
    (initSizeInfo 0)

/-- `NewMap` with a hasher and a requested capacity. -/
def newMapCap (hash : K → Nat) (req : Int) : Map K V :=
  Map.resize { hash := hash, meta := #[], elms := #[], si := ⟨0, 0⟩, active := 0, deleted := 0 }
    (initSizeInfo req)

/-- The zero value `var m Map[K, V]` (no `Init` called yet), with the
hasher that `getOpts` would install on first use. -/
def zeroMap (hash : K → Nat) : Map K V :=
  { hash := hash, meta := #[], elms := #[], si := ⟨0, 0⟩, active := 0, deleted := 0 }

theorem initSizeInfo_zero : initSizeInfo 0 = ⟨32, 16⟩ := by
  have h2 : (getOptsCapacity 0).toNat / 8 = 2 := by decide
  have hcs : ceilSqrt 2 = 2 := ceilSqrt_eq 2 2 (by norm_num) (by norm_num)
  unfold initSizeInfo roundSizeUp
  rw [h2, hcs]
  norm_num

theorem newMap_eq (h : K → Nat) :
    (newMap h : Map K V) = Map.resize (zeroMap h) ⟨32, 16⟩ := by
  unfold newMap zeroMap
  rw [initSizeInfo_zero]

/-- C9: on every empty map, `LRU`, `DeleteLRU`, and the iterators behave as
claimed (zero pairs, no elements); `MRU` behaves as claimed on every empty
map whose slot array is allocated (freshly constructed, or emptied by
deletions), but on the zero-value `Map` the unguarded read `m.elms[0].next`
makes Go panic with an index out of range, modelled here by
`Map.MRU? = none`: the claim is right and the code is wrong on that input. -/
theorem C9_code_bug (h : K → Nat) :
    ((zeroMap h : Map K V).MRU? = none) ∧
    ((zeroMap h : Map K V).LRU = (default, default)) ∧
    ((zeroMap h : Map K V).deleteLRU = (default, default, zeroMap h)) ∧
    ((zeroMap h : Map K V).keys = []) ∧
    ((zeroMap h : Map K V).values = []) ∧
    ((zeroMap h : Map K V).entries = []) ∧
    ((newMap h : Map K V).MRU? = some (default, default)) ∧
    ((newMap h : Map K V).LRU = (default, default)) ∧
    ((newMap h : Map K V).deleteLRU = (default, default, newMap h)) ∧
    ((newMap h : Map K V).keys = []) ∧
    ((newMap h : Map K V).values = []) ∧
    ((newMap h : Map K V).entries = []) ∧
    (∀ m : Map K V, 0 < m.elms.size → (m.elmAt 0).prev = 0 → (m.elmAt 0).next = 0 →
      m.MRU? = some (default, default) ∧ m.LRU = (default, default) ∧
      m.deleteLRU = (default, default, m) ∧
      m.keys = [] ∧ m.values = [] ∧ m.entries = []) := by
  refine ⟨rfl, rfl, rfl, rfl, rfl, rfl, ?_, ?_, ?_, ?_, ?_, ?_, ?_⟩
  · rw [newMap_eq]; rfl
  · rw [newMap_eq]; rfl
  · rw [newMap_eq]; rfl
  · rw [newMap_eq]; rfl
  · rw [newMap_eq]; rfl
  · rw [newMap_eq]; rfl
  · intro m hsz hp hn
    have hlru : m.lru = 0 := by
      unfold Map.lru
      rw [if_neg (by omega)]
      exact hp
    have hwalk : m.walk m.lru m.elms.size = [] := by
      rw [hlru]
      cases hsize : m.elms.size with
      | zero => rfl
      | succ k => simp [Map.walk]
    refine ⟨?_, ?_, ?_, ?_, ?_, ?_⟩
    · unfold Map.MRU?
      rw [if_neg (by omega), hn]
      rfl
    · unfold Map.LRU
      rw [hlru]
      rfl
    · unfold Map.deleteLRU
      rw [hlru]
      rfl
    · unfold Map.keys
      rw [hwalk]
      rfl
    · unfold Map.values
      rw [hwalk]
      rfl
    · unfold Map.entries
      rw [hwalk]
      rfl

/-- A concrete one-slot map used as the witness input for C9. -/
def oneSlotMap : Map Nat Nat :=
  { hash := fun _ => 0, meta := #[0], elms := #[zeroElem], si := ⟨0, 0⟩, active := 0, deleted := 0 }

/-- Witness for the hypothesis-bearing part of C9, at a one-slot map. -/
theorem C9_code_bug_witness :
    (0:Nat) < oneSlotMap.elms.size ∧ oneSlotMap.keys = [] := by
  constructor
  · decide
  · exact ((C9_code_bug (fun _ => 0)).2.2.2.2.2.2.2.2.2.2.2.2
      oneSlotMap (by decide) (by decide) (by decide)).2.2.2.1

/-! ### Byte-level characterization of the SWAR primitives -/

theorem detFlags_no_one (bs : List Nat) (t : Nat) (ht : t ≤ 1)
    (h1 : ∀ b ∈ bs, b ≠ 1) :
    detFlags bs t = bs.map (fun b => if b = 0 then 128 else 0) := by
  induction bs generalizing t with
  | nil => rfl
  | cons b rest ih =>
    have hb1 : b ≠ 1 := h1 b (List.mem_cons_self _ _)
    have hr : ∀ x ∈ rest, x ≠ 1 := fun x hx => h1 x (List.mem_cons_of_mem _ hx)
    simp only [detFlags, List.map]
    congr 1
    · split <;> split <;> omega
    · rw [ih (if b < 1 + t then 1 else 0) (by split <;> omega) hr]

theorem zipWith_repl (f : Nat → Nat → Nat) (bs : List Nat) (c : Nat) :
    List.zipWith f bs (List.replicate bs.length c) = bs.map (fun b => f b c) := by
  induction bs with
  | nil => rfl
  | cons b rest ih =>
    simp only [List.length_cons, List.replicate, List.zipWith, List.map]
    rw [ih]

theorem wordOf_replicate_mul (b : Nat) :
    wordOf (List.replicate 8 b) = b * 0x0101010101010101 := by
  simp only [List.replicate, wordOf]
  ring

theorem loBits_mul_mod (b : Nat) (hb : b < 256) :
    loBits * b % 2 ^ 64 = wordOf (List.replicate 8 b) := by
  rw [wordOf_replicate_mul]
  have hlt : loBits * b < 2 ^ 64 := by
    unfold loBits
    have : 0x0101010101010101 * b ≤ 0x0101010101010101 * 255 :=
      Nat.mul_le_mul_left _ (by omega)
    norm_num at this ⊢
    omega
  rw [Nat.mod_eq_of_lt hlt]
  unfold loBits
  ring

/-- `matchEmpty` on a group of valid metadata bytes (none equal to 1):
one flag byte `0x80` per empty byte. -/
theorem matchEmpty_spec (bs : List Nat) (h8 : bs.length = 8)
    (hb : ∀ b ∈ bs, b < 256) (h1 : ∀ b ∈ bs, b ≠ 1) :
    matchEmpty (wordOf bs) = wordOf (bs.map (fun b => if b = 0 then 128 else 0)) := by
  have hd := detector_spec bs 0 (by omega) hb
  rw [h8] at hd
  rw [detFlags_no_one bs 0 (by omega) h1] at hd
  have hlo : wordOf (List.replicate 8 1) = loBits := by decide
  have hhi : wordOf (List.replicate 8 128) = hiBits := by decide
  have hp : (2:Nat) ^ (8 * 8) = 2 ^ 64 := by norm_num
  rw [hlo, hhi, hp] at hd
  simp only [Nat.add_zero] at hd
  unfold matchEmpty sub64 compl64
  rw [← hd]

/-- `matchByte` on a group: the detector flags of the XOR-ed bytes,
borrow-in 0 (false positives on bytes equal to `b ^ 1` are retained). -/
theorem matchByte_spec (bs : List Nat) (b : Nat) (h8 : bs.length = 8)
    (hb : ∀ x ∈ bs, x < 256) (hb2 : b < 256) :
    matchByte (wordOf bs) b = wordOf (detFlags (bs.map (fun x => x ^^^ b)) 0) := by
  unfold matchByte
  rw [loBits_mul_mod b hb2]
  rw [show List.replicate 8 b = List.replicate bs.length b from by rw [h8]]
  rw [wordOf_xor bs (List.replicate bs.length b) (by simp)
    hb (by intro c hc; rw [List.eq_of_mem_replicate hc]; exact hb2)]
  rw [zipWith_repl]
  have hlen : (bs.map (fun x => x ^^^ b)).length = 8 := by simp [h8]
  have hbytes : ∀ y ∈ bs.map (fun x => x ^^^ b), y < 256 := by
    intro y hy
    obtain ⟨x, hx2, rfl⟩ := List.mem_map.mp hy
    have h1 : x < 2 ^ 8 := by have := hb x hx2; omega
    have h2 : b < 2 ^ 8 := by omega
    have := Nat.xor_lt_two_pow h1 h2
    omega
  have hd := detector_spec (bs.map (fun x => x ^^^ b)) 0 (by omega) hbytes
  rw [hlen] at hd
  have hlo : wordOf (List.replicate 8 1) = loBits := by decide
  have hhi : wordOf (List.replicate 8 128) = hiBits := by decide
  have hp : (2:Nat) ^ (8 * 8) = 2 ^ 64 := by norm_num
  rw [hlo, hhi, hp] at hd
  simp only [Nat.add_zero] at hd
  unfold matchZero sub64 compl64
  rw [← hd]

/-- `matchNotSet` on a group: flag `0x80` per byte without the high bit. -/
theorem matchNotSet_spec (bs : List Nat) (h8 : bs.length = 8)
    (hb : ∀ b ∈ bs, b < 256) :
    matchNotSet (wordOf bs) = wordOf (bs.map (fun b => (b &&& 128) ^^^ 128)) := by
  unfold matchNotSet
  have hhi : (hiBits : Nat) = wordOf (List.replicate 8 128) := by decide
  rw [hhi]
  rw [show List.replicate 8 128 = List.replicate bs.length 128 from by rw [h8]]
  rw [wordOf_and bs (List.replicate bs.length 128) (by simp)
    hb (by intro c hc; rw [List.eq_of_mem_replicate hc]; norm_num)]
  rw [zipWith_repl]
  rw [show List.replicate bs.length 128
      = List.replicate (bs.map (fun b => b &&& 128)).length 128 from by simp]
  rw [wordOf_xor (bs.map (fun b => b &&& 128))
    (List.replicate (bs.map (fun b => b &&& 128)).length 128) (by simp)
    (by
      intro y hy
      obtain ⟨x, hx2, rfl⟩ := List.mem_map.mp hy
      have h128 : (128:Nat) < 2 ^ 8 := by norm_num
      have := Nat.and_lt_two_pow x h128
      omega)
    (by intro c hc; rw [List.eq_of_mem_replicate hc]; norm_num)]
  rw [zipWith_repl]
  rw [List.map_map]
  rfl

theorem wordOf_append (xs ys : List Nat) :
    wordOf (xs ++ ys) = wordOf xs + 256 ^ xs.length * wordOf ys := by
  induction xs with
  | nil => simp [wordOf]
  | cons b rest ih =>
    simp only [List.cons_append, List.append_eq, wordOf, List.length_cons]
    rw [ih]
    ring

theorem wordOf_replicate_zero (n : Nat) : wordOf (List.replicate n 0) = 0 := by
  induction n with
  | zero => rfl
  | succ k ih => simp [List.replicate, wordOf, ih]

theorem wordOf_zero_head (F : List Nat) (b : Nat) :
    List.replicate b 0 ++ 0 :: F = List.replicate (b + 1) 0 ++ F := by
  induction b with
  | zero => rfl
  | succ k ih => simp [List.replicate, ih]

/-- Value of a flag word with `b` zero bytes then a flag byte. -/
theorem wordOf_flag_decomp (b : Nat) (F : List Nat) :
    wordOf (List.replicate b 0 ++ 128 :: F)
      = 2 ^ (8 * b + 7) + 2 ^ (8 * b + 8) * wordOf F := by
  rw [wordOf_append, wordOf_replicate_zero]
  simp only [wordOf, List.length_replicate]
  have h1 : (256 : Nat) ^ b = 2 ^ (8 * b) := by
    rw [show (256 : Nat) = 2 ^ 8 from by norm_num, ← pow_mul, Nat.mul_comm]
  rw [h1, pow_add, pow_add]
  ring

theorem wordOf_bytes_lt (bs : List Nat) (hb : ∀ b ∈ bs, b < 256) (h8 : bs.length ≤ 8) :
    wordOf bs < 2 ^ 64 := by
  have h := wordOf_lt bs hb
  have : (2:Nat) ^ (8 * bs.length) ≤ 2 ^ 64 := Nat.pow_le_pow_right (by norm_num) (by omega)
  omega

theorem tz64_eq_of (m t : Nat) (h1 : m.testBit t = true)
    (h2 : ∀ j < t, m.testBit j = false) (h64 : t < 64) : tz64 m = t := by
  unfold tz64
  have hlen : t < (List.range 64).length := by simpa using h64
  rw [List.findIdx_eq hlen]
  refine ⟨?_, ?_⟩
  · simp only [List.getElem_range]
    simp [h1]
  · intro j hj
    simp only [List.getElem_range]
    simp [h2 j hj]

theorem flag_word_tz (b : Nat) (F : List Nat) (hb : b + 1 + F.length ≤ 8)
    (hF : ∀ f ∈ F, f < 256) :
    tz64 (wordOf (List.replicate b 0 ++ 128 :: F)) = 8 * b + 7 := by
  rw [wordOf_flag_decomp]
  have hkey : ∀ j, (2 ^ (8 * b + 7) + 2 ^ (8 * b + 8) * wordOf F).testBit j
      = if j < 8 * b + 8 then (2 ^ (8 * b + 7)).testBit j else (wordOf F).testBit (j - (8 * b + 8)) := by
    intro j
    have hlt : (2:Nat) ^ (8 * b + 7) < 2 ^ (8 * b + 8) := by
      exact Nat.pow_lt_pow_right (by norm_num) (by omega)
    have h := Nat.testBit_mul_pow_two_add (wordOf F) hlt j
    rw [Nat.add_comm (2 ^ (8 * b + 8) * wordOf F) (2 ^ (8 * b + 7))] at h
    exact h
  apply tz64_eq_of
  · rw [hkey]
    rw [if_pos (by omega)]
    exact Nat.testBit_two_pow_self
  · intro j hj
    rw [hkey, if_pos (by omega)]
    exact Nat.testBit_two_pow_of_ne (by omega)
  · omega

theorem testBit_compl64 (x j : Nat) (hx : x < 2 ^ 64) :
    (compl64 x).testBit j = (decide (j < 64) && !(x.testBit j)) := by
  unfold compl64
  rw [Nat.testBit_xor, Nat.testBit_two_pow_sub_one]
  by_cases hj : j < 64
  · simp [hj]
  · simp only [hj, decide_False, Bool.false_and, Bool.xor_false]
    apply Nat.testBit_lt_two_pow
    calc x < 2 ^ 64 := hx
      _ ≤ 2 ^ j := Nat.pow_le_pow_right (by norm_num) (by omega)

/-- Clearing the lowest set bit of a flag word removes its flag byte. -/
theorem flag_word_clear (b : Nat) (F : List Nat) (hb : b + 1 + F.length ≤ 8)
    (hF : ∀ f ∈ F, f < 256) :
    matchNextMask (wordOf (List.replicate b 0 ++ 128 :: F))
      = wordOf (List.replicate (b + 1) 0 ++ F) := by
  unfold matchNextMask
  rw [flag_word_tz b F hb hF]
  have hFlt : wordOf F < 2 ^ (8 * F.length) := wordOf_lt F hF
  apply Nat.eq_of_testBit_eq
  intro j
  rw [Nat.testBit_and]
  have hsh : (1 : Nat) <<< (8 * b + 7) = 2 ^ (8 * b + 7) := by
    rw [Nat.shiftLeft_eq]
    ring
  rw [hsh]
  have hc := testBit_compl64 (2 ^ (8 * b + 7)) j
    (by exact Nat.pow_lt_pow_right (by norm_num) (by omega))
  rw [hc]
  rw [wordOf_flag_decomp]
  have hrhs : wordOf (List.replicate (b + 1) 0 ++ F) = 2 ^ (8 * b + 8) * wordOf F := by
    rw [wordOf_append, wordOf_replicate_zero]
    simp only [List.length_replicate]
    rw [show (256 : Nat) ^ (b + 1) = 2 ^ (8 * b + 8) from by
      rw [show (256 : Nat) = 2 ^ 8 from by norm_num, ← pow_mul]
      ring_nf]
    omega
  rw [hrhs]
  have hlt2 : (2:Nat) ^ (8 * b + 7) < 2 ^ (8 * b + 8) := Nat.pow_lt_pow_right (by norm_num) (by omega)
  have hmulbit : ∀ i, (2 ^ (8 * b + 8) * wordOf F).testBit i
      = if i < 8 * b + 8 then false else (wordOf F).testBit (i - (8 * b + 8)) := by
    intro i
    have := Nat.testBit_mul_pow_two_add (wordOf F) (by positivity : (0:Nat) < 2 ^ (8 * b + 8)) i
    rw [Nat.add_zero] at this
    rw [this]
    by_cases hi : i < 8 * b + 8 <;> simp [hi]
  have hlhsbit : ∀ i, (2 ^ (8 * b + 7) + 2 ^ (8 * b + 8) * wordOf F).testBit i
      = if i < 8 * b + 8 then (2 ^ (8 * b + 7)).testBit i else (wordOf F).testBit (i - (8 * b + 8)) := by
    intro i
    have h := Nat.testBit_mul_pow_two_add (wordOf F) hlt2 i
    rw [Nat.add_comm (2 ^ (8 * b + 8) * wordOf F) (2 ^ (8 * b + 7))] at h
    exact h
  rw [hlhsbit, hmulbit]
  by_cases hj : j < 8 * b + 8
  · by_cases hj7 : j = 8 * b + 7
    · subst hj7
      simp [Nat.testBit_two_pow_self, hj]
    · simp only [if_pos hj]
      rw [Nat.testBit_two_pow_of_ne (fun h => hj7 h.symm)]
      simp
  · simp only [if_neg hj]
    have hj64 : j - (8 * b + 8) ≥ 8 * F.length ∨ j < 64 := by
      by_cases h : j < 64
      · right; exact h
      · left; omega
    rcases Nat.lt_or_ge j 64 with h64 | h64
    · have : (2 ^ (8 * b + 7) : Nat).testBit j = false :=
        Nat.testBit_two_pow_of_ne (by omega)
      simp [h64, this]
    · have hbig : (wordOf F).testBit (j - (8 * b + 8)) = false := by
        apply Nat.testBit_lt_two_pow
        calc wordOf F < 2 ^ (8 * F.length) := hFlt
          _ ≤ 2 ^ (j - (8 * b + 8)) := Nat.pow_le_pow_right (by norm_num) (by omega)
      simp [h64, hbig]

/-- Any nonzero flag word decomposes as zero bytes, a flag, and a tail. -/
theorem flag_decomp (F : List Nat) (hF : ∀ f ∈ F, f = 0 ∨ f = 128)
    (h : wordOf F ≠ 0) :
    ∃ b G, F = List.replicate b 0 ++ 128 :: G ∧ (∀ f ∈ G, f = 0 ∨ f = 128) ∧
      b + 1 + G.length = F.length := by
  induction F with
  | nil => simp [wordOf] at h
  | cons f rest ih =>
    rcases hF f (List.mem_cons_self _ _) with h0 | h128
    · subst h0
      have hrest : wordOf rest ≠ 0 := by
        simp only [wordOf] at h
        omega
      obtain ⟨b, G, hEq, hG, hLen⟩ := ih (fun x hx => hF x (List.mem_cons_of_mem _ hx)) hrest
      refine ⟨b + 1, G, ?_, hG, ?_⟩
      · rw [hEq, List.replicate_succ]
        rfl
      · simp only [List.length_cons]
        omega
    · subst h128
      exact ⟨0, rest, rfl, fun x hx => hF x (List.mem_cons_of_mem _ hx),
        by simp only [List.length_cons]; omega⟩

theorem matchNextIdx_flag (b : Nat) (F : List Nat) (hb : b + 1 + F.length ≤ 8)
    (hF : ∀ f ∈ F, f < 256) :
    matchNextIdx (wordOf (List.replicate b 0 ++ 128 :: F)) = b := by
  unfold matchNextIdx
  rw [flag_word_tz b F hb hF]
  rw [Nat.shiftRight_eq_div_pow]
  omega

/-- The candidate scan of `find` as a walk over the flag bytes of the group
(the byte index is `base` plus the position in the remaining list). -/
def scanFlags (m : Map K V) (key : K) (p : Probe) : List Nat → Nat → Option Int
  | [], _ => none
  | f :: fs, base =>
    if f = 128 then
      if (m.elmAt (p.index (base : Int))).key = key then some (p.index (base : Int))
      else scanFlags m key p fs (base + 1)
    else scanFlags m key p fs (base + 1)

theorem flag_vals_lt (F : List Nat) (hF : ∀ f ∈ F, f = 0 ∨ f = 128) :
    ∀ f ∈ F, f < 256 := by
  intro f hf
  rcases hF f hf with h | h <;> omega

theorem wordOf_flags_ne_zero (b : Nat) (F : List Nat) :
    wordOf (List.replicate b 0 ++ 128 :: F) ≠ 0 := by
  rw [wordOf_flag_decomp]
  positivity

theorem wordOf_flags_zero (F : List Nat) (hF : ∀ f ∈ F, f = 0 ∨ f = 128)
    (h : wordOf F = 0) : ∀ f ∈ F, f = 0 := by
  induction F with
  | nil => simp
  | cons f rest ih =>
    simp only [wordOf] at h
    intro x hx
    rcases List.mem_cons.mp hx with rfl | hx2
    · omega
    · exact ih (fun y hy => hF y (List.mem_cons_of_mem _ hy)) (by omega) x hx2

/-- The inner loop of `find` equals the flag-byte walk. -/
theorem scanMask_eq_scanFlags (m : Map K V) (key : K) (p : Probe) :
    ∀ (F : List Nat) (base fuel : Nat), (∀ f ∈ F, f = 0 ∨ f = 128) →
    base + F.length ≤ 8 → F.length ≤ fuel →
    m.scanMask key p (wordOf (List.replicate base 0 ++ F)) fuel
      = scanFlags m key p F base := by
  intro F
  induction F with
  | nil =>
    intro base fuel hF hb hf
    simp only [scanFlags]
    rw [List.append_nil, wordOf_replicate_zero]
    cases fuel with
    | zero => rfl
    | succ k => simp [Map.scanMask]
  | cons f fs ih =>
    intro base fuel hF hb hf
    cases fuel with
    | zero =>
      simp only [List.length_cons] at hf
      omega
    | succ fuel =>
      rcases hF f (List.mem_cons_self _ _) with h0 | h128
      · subst h0
        rw [wordOf_zero_head]
        have hb2 : base + 1 + fs.length ≤ 8 := by
          have h := hb
          simp only [List.length_cons] at h
          omega
        have hf2 : fs.length ≤ fuel + 1 := by
          have h := hf
          simp only [List.length_cons] at h
          omega
        have hstep := ih (base + 1) (fuel + 1) (fun x hx => hF x (List.mem_cons_of_mem _ hx))
          hb2 hf2
        rw [hstep]
        simp [scanFlags]
      · subst h128
        have hfs : ∀ x ∈ fs, x = 0 ∨ x = 128 := fun x hx => hF x (List.mem_cons_of_mem _ hx)
        have hfs2 : ∀ x ∈ fs, x < 256 := flag_vals_lt fs hfs
        have hlen : base + 1 + fs.length ≤ 8 := by simp at hb; omega
        simp only [Map.scanMask]
        rw [if_neg (wordOf_flags_ne_zero base fs)]
        rw [matchNextIdx_flag base fs hlen hfs2]
        have hredux : scanFlags m key p (128 :: fs) base
            = if (m.elmAt (p.index (base : Int))).key = key then some (p.index (base : Int))
              else scanFlags m key p fs (base + 1) := by
          simp [scanFlags]
        rw [hredux]
        by_cases hkey : (m.elmAt (p.index (base : Int))).key = key
        · rw [if_pos hkey, if_pos hkey]
        · rw [if_neg hkey, if_neg hkey]
          rw [flag_word_clear base fs hlen hfs2]
          have hf2 : fs.length ≤ fuel := by
            have h := hf
            simp only [List.length_cons] at h
            omega
          exact ih (base + 1) fuel hfs hlen hf2

/-- Valid metadata byte values: `empty`, `deleted`, or set (`0x80 | h2`). -/
def MetaByteOK (b : Nat) : Prop := b = 0 ∨ b = 2 ∨ (128 ≤ b ∧ b < 256)

theorem MetaByteOK.lt (b : Nat) (h : MetaByteOK b) : b < 256 := by
  rcases h with h | h | h <;> omega

theorem MetaByteOK.ne_one (b : Nat) (h : MetaByteOK b) : b ≠ 1 := by
  rcases h with h | h | h <;> omega

theorem groupBytes_length (meta : Array Nat) (i : Nat) :
    (groupBytes meta i).length = 8 := by
  simp [groupBytes]

theorem groupBytes_getD (meta : Array Nat) (i k : Nat) (hk : k < 8) :
    (groupBytes meta i).getD k 0 = meta.getD (i + k) 0 := by
  unfold groupBytes
  rw [List.getD_eq_getElem _ _ (by simpa using hk)]
  simp

theorem groupBytes_mem (meta : Array Nat) (i : Nat) (b : Nat)
    (hb : b ∈ groupBytes meta i) : ∃ k < 8, b = meta.getD (i + k) 0 := by
  unfold groupBytes at hb
  obtain ⟨k, hk, rfl⟩ := List.mem_map.mp hb
  exact ⟨k, List.mem_range.mp hk, rfl⟩

theorem wordOf_all_zero (F : List Nat) (h : ∀ f ∈ F, f = 0) : wordOf F = 0 := by
  induction F with
  | nil => rfl
  | cons f fs ih =>
    simp only [wordOf]
    rw [h f (List.mem_cons_self _ _), ih (fun x hx => h x (List.mem_cons_of_mem _ hx))]

/-- `matchEmpty` of a group is nonzero iff the window holds an empty byte
(bytes valid). -/
theorem matchEmpty_window (meta : Array Nat) (i : Nat)
    (hok : ∀ j : Nat, MetaByteOK (meta.getD j 0)) :
    matchEmpty (newBitset meta i) ≠ 0 ↔ ∃ d < 8, meta.getD (i + d) 0 = 0 := by
  unfold newBitset
  have hb : ∀ b ∈ groupBytes meta i, b < 256 := by
    intro b hbm
    obtain ⟨k, _, rfl⟩ := groupBytes_mem meta i b hbm
    exact MetaByteOK.lt _ (hok (i + k))
  have h1 : ∀ b ∈ groupBytes meta i, b ≠ 1 := by
    intro b hbm
    obtain ⟨k, _, rfl⟩ := groupBytes_mem meta i b hbm
    exact MetaByteOK.ne_one _ (hok (i + k))
  rw [matchEmpty_spec _ (groupBytes_length meta i) hb h1]
  constructor
  · intro hne
    by_contra hno
    push_neg at hno
    apply hne
    have hall : ∀ f ∈ (groupBytes meta i).map (fun b => if b = 0 then 128 else 0), f = 0 := by
      intro f hf
      obtain ⟨b, hbm, rfl⟩ := List.mem_map.mp hf
      obtain ⟨k, hk, rfl⟩ := groupBytes_mem meta i b hbm
      rw [if_neg (hno k hk)]
    exact wordOf_all_zero _ hall
  · rintro ⟨d, hd, hzero⟩ hw
    have hflags : ∀ f ∈ (groupBytes meta i).map (fun b => if b = 0 then 128 else 0),
        f = 0 ∨ f = 128 := by
      intro f hf
      obtain ⟨b, _, rfl⟩ := List.mem_map.mp hf
      split <;> simp
    have hall := wordOf_flags_zero _ hflags hw
    have hdmem : (128 : Nat) ∈ (groupBytes meta i).map (fun b => if b = 0 then 128 else 0) := by
      have hmem : meta.getD (i + d) 0 ∈ groupBytes meta i := by
        unfold groupBytes
        exact List.mem_map.mpr ⟨d, List.mem_range.mpr hd, rfl⟩
      have h128 : (fun b => if b = 0 then (128:Nat) else 0) (meta.getD (i + d) 0) = 128 := by
        simp [hzero]
      have hin := List.mem_map_of_mem (fun b => if b = 0 then (128:Nat) else 0) hmem
      rw [h128] at hin
      exact hin
    have := hall 128 hdmem
    omega

set_option maxRecDepth 10000 in
theorem notSetFlag (b : Nat) (hb : b < 256) :
    ((b &&& 128) ^^^ 128) = (if b < 128 then (128:Nat) else 0) := by
  revert hb
  revert b
  decide

/-- `matchNotSet` of a group is nonzero iff the window holds a byte without
the high bit (empty or tombstone). -/
theorem matchNotSet_window (meta : Array Nat) (i : Nat)
    (hok : ∀ j : Nat, MetaByteOK (meta.getD j 0)) :
    matchNotSet (newBitset meta i) ≠ 0 ↔ ∃ d < 8, meta.getD (i + d) 0 < 128 := by
  unfold newBitset
  have hb : ∀ b ∈ groupBytes meta i, b < 256 := by
    intro b hbm
    obtain ⟨k, _, rfl⟩ := groupBytes_mem meta i b hbm
    exact MetaByteOK.lt _ (hok (i + k))
  rw [matchNotSet_spec _ (groupBytes_length meta i) hb]
  have hmapeq : (groupBytes meta i).map (fun b => (b &&& 128) ^^^ 128)
      = (groupBytes meta i).map (fun b => if b < 128 then 128 else 0) := by
    apply List.map_congr_left
    intro b hbm
    exact notSetFlag b (hb b hbm)
  rw [hmapeq]
  constructor
  · intro hne
    by_contra hno
    push_neg at hno
    apply hne
    apply wordOf_all_zero
    intro f hf
    obtain ⟨b, hbm, rfl⟩ := List.mem_map.mp hf
    obtain ⟨k, hk, rfl⟩ := groupBytes_mem meta i b hbm
    rw [if_neg (by have := hno k hk; omega)]
  · rintro ⟨d, hd, hlt⟩ hw
    have hflags : ∀ f ∈ (groupBytes meta i).map (fun b => if b < 128 then (128:Nat) else 0),
        f = 0 ∨ f = 128 := by
      intro f hf
      obtain ⟨b, _, rfl⟩ := List.mem_map.mp hf
      split <;> simp
    have hall := wordOf_flags_zero _ hflags hw
    have hmem : meta.getD (i + d) 0 ∈ groupBytes meta i := by
      unfold groupBytes
      exact List.mem_map.mpr ⟨d, List.mem_range.mpr hd, rfl⟩
    have h128 : (fun b => if b < 128 then (128:Nat) else 0) (meta.getD (i + d) 0) = 128 :=
      if_pos hlt
    have hin := List.mem_map_of_mem (fun b => if b < 128 then (128:Nat) else 0) hmem
    rw [h128] at hin
    have := hall 128 hin
    omega

/-- Physical window byte `meta[off + d]` equals the logical byte of slot
`addModulo off d capacity` when the mirror region is intact. -/
theorem window_byte (meta : Array Nat) (cap : Int) (hcap : 8 ≤ cap)
    (hmirror : ∀ j : Nat, 1 ≤ j → j ≤ 7 →
      meta.getD (cap.toNat + j) 0 = meta.getD j 0)
    (off : Int) (h1 : 1 ≤ off) (h2 : off ≤ cap) (d : Nat) (hd : d < 8) :
    meta.getD (off.toNat + d) 0 = meta.getD (addModulo off (d : Int) cap).toNat 0 := by
  unfold addModulo
  by_cases hc : off + (d : Int) > cap
  · rw [if_pos hc]
    have hs1 : 1 ≤ off + d - cap := by omega
    have hs7 : off + (d : Int) - cap ≤ 7 := by omega
    have heq : off.toNat + d = cap.toNat + (off + (d : Int) - cap).toNat := by omega
    rw [heq]
    rw [hmirror (off + (d : Int) - cap).toNat (by omega) (by omega)]
  · rw [if_neg hc]
    congr 1
    omega

theorem foundOr_some (i : Int) (b : Option Int) : foundOr (some i) b = some i := rfl

theorem foundOr_none (b : Option Int) : foundOr none b = b := rfl

theorem Map.findLoop_succ (m : Map K V) (key : K) (h2v : Nat) (p : Probe) (fuel : Nat) :
    m.findLoop key h2v p (fuel + 1)
      = foundOr (m.scanMask key p (matchByte (newBitset m.meta p.offset.toNat) h2v) 64)
          (if matchEmpty (newBitset m.meta p.offset.toNat) ≠ 0 then some 0
           else m.findLoop key h2v p.next fuel) := rfl

theorem Map.findFirstNotSetIdx_succ (m : Map K V) (p : Probe) (fuel : Nat) :
    m.findFirstNotSetIdx p (fuel + 1)
      = if matchNotSet (newBitset m.meta p.offset.toNat) ≠ 0
        then some (p.index ((matchNextIdx (matchNotSet (newBitset m.meta p.offset.toNat)) : Nat) : Int))
        else m.findFirstNotSetIdx p.next fuel := rfl

/-- The probe loop of `find` succeeds within `fuel` steps as soon as some
probed window within `fuel` steps holds an empty byte. -/
theorem findLoop_isSome (m : Map K V) (key : K) (h2v : Nat)
    (hok : ∀ j : Nat, MetaByteOK (m.meta.getD j 0)) :
    ∀ (fuel : Nat) (p : Probe),
    (∃ k < fuel, ∃ d < 8, m.meta.getD ((Probe.next^[k] p).offset.toNat + d) 0 = 0) →
    (m.findLoop key h2v p fuel).isSome := by
  intro fuel
  induction fuel with
  | zero =>
    rintro p ⟨k, hk, _⟩
    omega
  | succ fuel ih =>
    rintro p ⟨k, hk, d, hd, hzero⟩
    rw [Map.findLoop_succ]
    cases hscan : m.scanMask key p (matchByte (newBitset m.meta p.offset.toNat) h2v) 64 with
    | some i => rw [foundOr_some]; rfl
    | none =>
      rw [foundOr_none]
      by_cases hemp : matchEmpty (newBitset m.meta p.offset.toNat) ≠ 0
      · rw [if_pos hemp]
        simp
      · rw [if_neg hemp]
        push_neg at hemp
        cases k with
        | zero =>
          exfalso
          have := (matchEmpty_window m.meta p.offset.toNat hok).mpr
            ⟨d, hd, by simpa using hzero⟩
          exact this hemp
        | succ k2 =>
          apply ih
          refine ⟨k2, by omega, d, hd, ?_⟩
          rw [← Function.iterate_succ_apply]
          exact hzero

/-- The `findFirstNotSet` loop succeeds within `fuel` steps as soon as some
probed window within `fuel` steps holds a not-set byte. -/
theorem findFirstNotSetIdx_isSome (m : Map K V)
    (hok : ∀ j : Nat, MetaByteOK (m.meta.getD j 0)) :
    ∀ (fuel : Nat) (p : Probe),
    (∃ k < fuel, ∃ d < 8, m.meta.getD ((Probe.next^[k] p).offset.toNat + d) 0 < 128) →
    (m.findFirstNotSetIdx p fuel).isSome := by
  intro fuel
  induction fuel with
  | zero =>
    rintro p ⟨k, hk, _⟩
    omega
  | succ fuel ih =>
    rintro p ⟨k, hk, d, hd, hlt⟩
    rw [Map.findFirstNotSetIdx_succ]
    by_cases hns : matchNotSet (newBitset m.meta p.offset.toNat) ≠ 0
    · rw [if_pos hns]
      simp
    · rw [if_neg hns]
      push_neg at hns
      cases k with
      | zero =>
        exfalso
        exact (matchNotSet_window m.meta p.offset.toNat hok).mpr
          ⟨d, hd, by simpa using hlt⟩ hns
      | succ k2 =>
        apply ih
        refine ⟨k2, by omega, d, hd, ?_⟩
        rw [← Function.iterate_succ_apply]
        exact hlt

theorem numGroups_eq (q : Nat) (si : SizeInfo) (hc : si.capacity = 8 * q * q) :
    numGroups si = q * q := by
  unfold numGroups
  rw [hc]
  have h : (8 * (q:Int) * q) = ((8 * (q * q) : Nat) : Int) := by push_cast; ring
  rw [h]
  omega

/-- **C7.** For every hash value, the group offsets produced by starting at
the initial probe position (`newProbe`) and repeatedly applying `next` visit
every group of the table exactly once before repeating: the first `q²`
offsets (one per group of a capacity-`8q²` table) are pairwise distinct,
after exactly `q²` steps the offset returns to its starting value, and every
slot of the table lies in the 8-byte window of one of those `q²` probe
positions.  Consequently, the probe loops terminate within their fuel of
`numGroups` steps: on a table with well-formed metadata and intact mirror
bytes, `find`'s probe loop succeeds whenever the table contains at least one
empty slot, and the `findFirstNotSet` loop of `insert` succeeds whenever the
table contains at least one non-set slot. -/
theorem C7_probe_schedule_and_termination (q : Nat) (hq : 2 ≤ q)
    (si : SizeInfo) (hc : si.capacity = 8 * q * q) (hn : si.n = 8 * q)
    (x : Nat) (hx : x < 2 ^ 64) :
    (∀ j k : Nat, j < q * q → k < q * q →
      (probeSeq x si j).offset = (probeSeq x si k).offset → j = k) ∧
    (probeSeq x si (q * q)).offset = (probeSeq x si 0).offset ∧
    (∀ s : Int, 1 ≤ s → s ≤ si.capacity →
      ∃ k : Nat, k < q * q ∧ ∃ d : Int, 0 ≤ d ∧ d < 8 ∧
        (probeSeq x si k).index d = s) ∧
    (∀ (m : Map K V) (key : K) (h2v : Nat), m.si = si →
      (∀ j : Nat, MetaByteOK (m.meta.getD j 0)) →
      (∀ j : Nat, 1 ≤ j → j ≤ 7 →
        m.meta.getD (si.capacity.toNat + j) 0 = m.meta.getD j 0) →
      (∃ s : Int, 1 ≤ s ∧ s ≤ si.capacity ∧ m.meta.getD s.toNat 0 = 0) →
      (m.findLoop key h2v (newProbe x si) m.probeFuel).isSome) ∧
    (∀ (m : Map K V), m.si = si →
      (∀ j : Nat, MetaByteOK (m.meta.getD j 0)) →
      (∀ j : Nat, 1 ≤ j → j ≤ 7 →
        m.meta.getD (si.capacity.toNat + j) 0 = m.meta.getD j 0) →
      (∃ s : Int, 1 ≤ s ∧ s ≤ si.capacity ∧ m.meta.getD s.toNat 0 < 128) →
      (m.findFirstNotSetIdx (newProbe x si) m.probeFuel).isSome) := by
  have hcap8 : (8:Int) ≤ si.capacity := by
    rw [hc]
    have h2 : (2:Int) ≤ (q:Int) := by exact_mod_cast hq
    nlinarith
  refine ⟨fun j k hj hk he => probe_visits_once q hq si hc hn x hx j k hj hk he,
    probe_repeats q hq si hc hn x hx,
    fun s hs1 hs2 => probe_covers q hq si hc hn x hx s hs1 hs2, ?_, ?_⟩
  · rintro m key h2v hmsi hok hmir ⟨s, hs1, hs2, hzero⟩
    obtain ⟨k, hk, d, hd0, hd8, hidx⟩ := probe_covers q hq si hc hn x hx s hs1 hs2
    obtain ⟨ho1, ho2, _, hsi⟩ := probeSeq_spec q hq si hc hn x hx k
    have hkfuel : k < m.probeFuel := by
      show k < numGroups m.si
      rw [hmsi, numGroups_eq q si hc]
      exact hk
    have hdnat : ((d.toNat : Nat) : Int) = d := Int.toNat_of_nonneg hd0
    have hidx2 : addModulo (probeSeq x si k).offset d si.capacity = s := by
      unfold Probe.index at hidx
      rw [hsi] at hidx
      exact hidx
    have hw := window_byte m.meta si.capacity hcap8 hmir
      (probeSeq x si k).offset ho1 ho2 d.toNat (by omega)
    apply findLoop_isSome m key h2v hok m.probeFuel (newProbe x si)
    refine ⟨k, hkfuel, d.toNat, by omega, ?_⟩
    show m.meta.getD ((probeSeq x si k).offset.toNat + d.toNat) 0 = 0
    rw [hw, hdnat, hidx2]
    exact hzero
  · rintro m hmsi hok hmir ⟨s, hs1, hs2, hlt⟩
    obtain ⟨k, hk, d, hd0, hd8, hidx⟩ := probe_covers q hq si hc hn x hx s hs1 hs2
    obtain ⟨ho1, ho2, _, hsi⟩ := probeSeq_spec q hq si hc hn x hx k
    have hkfuel : k < m.probeFuel := by
      show k < numGroups m.si
      rw [hmsi, numGroups_eq q si hc]
      exact hk
    have hdnat : ((d.toNat : Nat) : Int) = d := Int.toNat_of_nonneg hd0
    have hidx2 : addModulo (probeSeq x si k).offset d si.capacity = s := by
      unfold Probe.index at hidx
      rw [hsi] at hidx
      exact hidx
    have hw := window_byte m.meta si.capacity hcap8 hmir
      (probeSeq x si k).offset ho1 ho2 d.toNat (by omega)
    apply findFirstNotSetIdx_isSome m hok m.probeFuel (newProbe x si)
    refine ⟨k, hkfuel, d.toNat, by omega, ?_⟩
    show m.meta.getD ((probeSeq x si k).offset.toNat + d.toNat) 0 < 128
    rw [hw, hdnat, hidx2]
    exact hlt

theorem C7_probe_schedule_and_termination_witness :
    2 ≤ 2 ∧ (SizeInfo.mk 32 16).capacity = 8 * 2 * 2 ∧
      (SizeInfo.mk 32 16).n = 8 * 2 ∧ (0:Nat) < 2 ^ 64 ∧
    ((∀ j k : Nat, j < 2 * 2 → k < 2 * 2 →
      (probeSeq 0 (SizeInfo.mk 32 16) j).offset
        = (probeSeq 0 (SizeInfo.mk 32 16) k).offset → j = k) ∧
    (probeSeq 0 (SizeInfo.mk 32 16) (2 * 2)).offset
        = (probeSeq 0 (SizeInfo.mk 32 16) 0).offset ∧
    (∀ s : Int, 1 ≤ s → s ≤ (SizeInfo.mk 32 16).capacity →
      ∃ k : Nat, k < 2 * 2 ∧ ∃ d : Int, 0 ≤ d ∧ d < 8 ∧
        (probeSeq 0 (SizeInfo.mk 32 16) k).index d = s) ∧
    (∀ (m : Map Nat Nat) (key : Nat) (h2v : Nat), m.si = SizeInfo.mk 32 16 →
      (∀ j : Nat, MetaByteOK (m.meta.getD j 0)) →
      (∀ j : Nat, 1 ≤ j → j ≤ 7 →
        m.meta.getD ((SizeInfo.mk 32 16).capacity.toNat + j) 0 = m.meta.getD j 0) →
      (∃ s : Int, 1 ≤ s ∧ s ≤ (SizeInfo.mk 32 16).capacity ∧
        m.meta.getD s.toNat 0 = 0) →
      (m.findLoop key h2v (newProbe 0 (SizeInfo.mk 32 16)) m.probeFuel).isSome) ∧
    (∀ (m : Map Nat Nat), m.si = SizeInfo.mk 32 16 →
      (∀ j : Nat, MetaByteOK (m.meta.getD j 0)) →
      (∀ j : Nat, 1 ≤ j → j ≤ 7 →
        m.meta.getD ((SizeInfo.mk 32 16).capacity.toNat + j) 0 = m.meta.getD j 0) →
      (∃ s : Int, 1 ≤ s ∧ s ≤ (SizeInfo.mk 32 16).capacity ∧
        m.meta.getD s.toNat 0 < 128) →
      (m.findFirstNotSetIdx (newProbe 0 (SizeInfo.mk 32 16)) m.probeFuel).isSome)) := by
  refine ⟨by decide, by decide, by decide, by decide, ?_⟩
  exact @C7_probe_schedule_and_termination Nat Nat _ _ _ 2 (by decide)
    (SizeInfo.mk 32 16) (by decide) (by decide) 0 (by decide)

theorem getD_setD_self {α : Type} (a : Array α) (i : Nat) (x d : α) (h : i < a.size) :
    (a.setD i x).getD i d = x := by
  unfold Array.setD
  rw [dif_pos h, Array.getD_eq_get?]
  have he := Array.getElem?_set_eq a ⟨i, h⟩ x
  rw [he]
  rfl

theorem getD_setD_ne {α : Type} (a : Array α) (i j : Nat) (x d : α) (h : i ≠ j) :
    (a.setD i x).getD j d = a.getD j d := by
  unfold Array.setD
  split
  · rw [Array.getD_eq_get?, Array.getElem?_set_ne _ _ _ h, ← Array.getD_eq_get?]
  · rfl

theorem getD_mkArray {α : Type} (n : Nat) (v d : α) (i : Nat) :
    (Array.mkArray n v).getD i d = if i < n then v else d := by
  rw [Array.getD_eq_get?, Array.getElem?_mkArray]
  split <;> rfl

theorem h1_lt (H : Nat) : h1 H < 2 ^ 64 := by
  unfold h1
  calc (H % 2 ^ 64) >>> 7 ≤ H % 2 ^ 64 := by
        rw [Nat.shiftRight_eq_div_pow]
        exact Nat.div_le_self _ _
    _ < 2 ^ 64 := Nat.mod_lt _ (by norm_num)

theorem h2_ge (H : Nat) : 128 ≤ h2 H := by
  unfold h2
  have ht : ((H % 2 ^ 64 % 256) ||| 128).testBit 7 = true := by
    rw [Nat.testBit_or]
    simp [Nat.testBit]
  have := Nat.testBit_implies_ge ht
  omega

theorem h2_lt (H : Nat) : h2 H < 256 := by
  unfold h2
  have hm : H % 2 ^ 64 % 256 < 2 ^ 8 := Nat.mod_lt _ (by norm_num)
  have hb : (128 : Nat) < 2 ^ 8 := by norm_num
  have := Nat.or_lt_two_pow hm hb
  omega

theorem detFlags_replicate (b : Nat) (hb : 2 ≤ b) :
    ∀ (n t : Nat), t ≤ 1 → detFlags (List.replicate n b) t = List.replicate n 0 := by
  intro n
  induction n with
  | zero => intro t _; rfl
  | succ n ih =>
    intro t ht
    rw [List.replicate_succ]
    simp only [detFlags]
    rw [if_neg (by omega), if_neg (by omega), ih 0 (by omega), List.replicate_succ]

theorem matchByte_zero_word (b : Nat) (hb : 2 ≤ b) (hb2 : b < 256) :
    matchByte 0 b = 0 := by
  rw [show (0:Nat) = wordOf (List.replicate 8 0) from (wordOf_replicate_zero 8).symm]
  rw [matchByte_spec _ b (by simp)
    (by intro x hx; rw [List.eq_of_mem_replicate hx]; omega) hb2]
  rw [List.map_replicate]
  rw [Nat.zero_xor]
  rw [detFlags_replicate b hb 8 0 (by omega)]

theorem scanMask_mask_zero (m : Map K V) (key : K) (p : Probe) (fuel : Nat) :
    m.scanMask key p 0 (fuel + 1) = none := by
  simp [Map.scanMask]

/-- On a metadata array that is all zeros (the freshly initialized table),
the probe loop of `find` reports a miss at the very first group. -/
theorem findLoop_zero_meta (m : Map K V) (key : K) (h2v : Nat)
    (hz : ∀ j : Nat, m.meta.getD j 0 = 0) (hb : 2 ≤ h2v) (hb2 : h2v < 256)
    (p : Probe) (fuel : Nat) :
    m.findLoop key h2v p (fuel + 1) = some 0 := by
  rw [Map.findLoop_succ]
  have hs : newBitset m.meta p.offset.toNat = 0 := by
    unfold newBitset
    apply wordOf_all_zero
    intro f hf
    obtain ⟨kk, _, rfl⟩ := groupBytes_mem _ _ _ hf
    exact hz _
  rw [hs, matchByte_zero_word h2v hb hb2]
  rw [show m.scanMask key p 0 64 = m.scanMask key p 0 (63 + 1) from rfl]
  rw [scanMask_mask_zero, foundOr_none, if_pos (show matchEmpty 0 ≠ 0 by decide)]

/-- On an all-zero metadata array, `findFirstNotSet` returns the first slot
of the first probed group. -/
theorem findFirstNotSetIdx_zero_meta (m : Map K V)
    (hz : ∀ j : Nat, m.meta.getD j 0 = 0) (p : Probe) (fuel : Nat) :
    m.findFirstNotSetIdx p (fuel + 1) = some (p.index 0) := by
  rw [Map.findFirstNotSetIdx_succ]
  have hs : newBitset m.meta p.offset.toNat = 0 := by
    unfold newBitset
    apply wordOf_all_zero
    intro f hf
    obtain ⟨kk, _, rfl⟩ := groupBytes_mem _ _ _ hf
    exact hz _
  rw [hs, if_pos (show matchNotSet 0 ≠ 0 by decide)]
  rw [show matchNextIdx (matchNotSet 0) = 0 from by decide]
  rw [show (((0:Nat) : Nat) : Int) = 0 from rfl]

theorem matchByte_single (b : Nat) (hb : 2 ≤ b) (hb3 : b < 256) :
    matchByte (wordOf [b, 0, 0, 0, 0, 0, 0, 0]) b = 128 := by
  rw [matchByte_spec [b, 0, 0, 0, 0, 0, 0, 0] b (by simp)
    (by intro x hx; simp at hx; rcases hx with h | h <;> omega) hb3]
  simp only [List.map_cons, List.map_nil, Nat.xor_self, Nat.zero_xor]
  rw [show ([b, b, b, b, b, b, b] : List Nat) = List.replicate 7 b from rfl]
  have hd : detFlags (0 :: List.replicate 7 b) 0 = 128 :: List.replicate 7 0 := by
    rw [show detFlags (0 :: List.replicate 7 b) 0
        = (if (0:Nat) < 1 + 0 then 128 else 0)
          :: detFlags (List.replicate 7 b) (if (0:Nat) < 1 + 0 then 1 else 0) from rfl]
    rw [if_pos (by omega), if_pos (by omega), detFlags_replicate b hb 7 1 (by omega)]
  rw [hd]
  simp [wordOf, wordOf_replicate_zero]

theorem scanMask_hit (m : Map K V) (key : K) (p : Probe)
    (hkey : (m.elmAt (p.index 0)).key = key) (fuel : Nat) :
    m.scanMask key p 128 (fuel + 1) = some (p.index 0) := by
  simp only [Map.scanMask]
  rw [if_neg (show ¬ ((128:Nat) = 0) from by norm_num)]
  have h0 : ((matchNextIdx 128 : Nat) : Int) = 0 := by
    rw [show matchNextIdx 128 = 0 from by decide]
    rfl
  rw [h0, if_pos hkey]

/-- On a table whose probed window holds exactly the sought `h2` byte at
distance 0 (and empty bytes after it), and whose slot at that index holds
the sought key, the probe loop of `find` reports a hit there. -/
theorem findLoop_one_set (m : Map K V) (key : K) (h2v : Nat) (p : Probe) (fuel : Nat)
    (hb : 2 ≤ h2v) (hb3 : h2v < 256)
    (hself : m.meta.getD p.offset.toNat 0 = h2v)
    (hother : ∀ d : Nat, 1 ≤ d → d ≤ 7 → m.meta.getD (p.offset.toNat + d) 0 = 0)
    (hkey : (m.elmAt (p.index 0)).key = key) :
    m.findLoop key h2v p (fuel + 1) = some (p.index 0) := by
  rw [Map.findLoop_succ]
  have hbs : groupBytes m.meta p.offset.toNat = [h2v, 0, 0, 0, 0, 0, 0, 0] := by
    unfold groupBytes
    rw [show List.range 8 = [0, 1, 2, 3, 4, 5, 6, 7] from by decide]
    simp only [List.map_cons, List.map_nil]
    rw [Nat.add_zero, hself,
      hother 1 (by omega) (by omega), hother 2 (by omega) (by omega),
      hother 3 (by omega) (by omega), hother 4 (by omega) (by omega),
      hother 5 (by omega) (by omega), hother 6 (by omega) (by omega),
      hother 7 (by omega) (by omega)]
  have hs : newBitset m.meta p.offset.toNat = wordOf [h2v, 0, 0, 0, 0, 0, 0, 0] := by
    unfold newBitset
    rw [hbs]
  rw [hs, matchByte_single h2v hb hb3]
  have hscan : m.scanMask key p 128 64 = some (p.index 0) := by
    rw [show (64:Nat) = 63 + 1 from rfl]
    exact scanMask_hit m key p hkey 63
  rw [hscan, foundOr_some]

theorem find?_of_findLoop (m : Map K V) (key : K) (hcap : ¬ (m.si.capacity = 0)) (i : Int)
    (hl : m.findLoop key (h2 (m.hash key)) (m.probe (m.hash key)) m.probeFuel = some i) :
    m.find? key = some (m.hash key, i, m) := by
  unfold Map.find?
  rw [if_neg hcap]
  simp only []
  rw [hl]

theorem elmAt_setElm_self (m : Map K V) (i : Int) (e : Elem K V)
    (h : i.toNat < m.elms.size) : (m.setElm i e).elmAt i = e := by
  unfold Map.setElm Map.elmAt
  exact getD_setD_self _ _ _ _ h

theorem elmAt_setElm_ne (m : Map K V) (i j : Int) (e : Elem K V)
    (h : i.toNat ≠ j.toNat) : (m.setElm i e).elmAt j = m.elmAt j := by
  unfold Map.setElm Map.elmAt
  exact getD_setD_ne _ _ _ _ _ h

theorem size_setElm (m : Map K V) (i : Int) (e : Elem K V) :
    (m.setElm i e).elms.size = m.elms.size := by
  unfold Map.setElm
  exact Array.size_setD _ _ _

theorem unlink_state (m : Map K V) (i : Int)
    (hi0 : ¬ (i.toNat = 0)) (h0sz : 0 < m.elms.size)
    (hp : (m.elmAt i).prev = 0) (hn : (m.elmAt i).next = 0) :
    (m.unlink i).elmAt i = m.elmAt i ∧
    (m.unlink i).elmAt 0
      = { key := (m.elmAt 0).key, value := (m.elmAt 0).value, prev := 0, next := 0 } ∧
    (m.unlink i).meta = m.meta ∧ (m.unlink i).si = m.si ∧
    (m.unlink i).hash = m.hash ∧ (m.unlink i).elms.size = m.elms.size := by
  unfold Map.unlink
  rw [hp, hn]
  have h0 : ((0:Int)).toNat < m.elms.size := by simpa using h0sz
  have hne : ((0:Int)).toNat ≠ i.toNat := by
    intro hcon
    exact hi0 hcon.symm
  refine ⟨?_, ?_, rfl, rfl, rfl, ?_⟩
  · rw [elmAt_setElm_ne _ 0 i _ hne, elmAt_setElm_ne _ 0 i _ hne]
  · rw [elmAt_setElm_self _ 0 _ (by rw [size_setElm]; exact h0)]
    rw [elmAt_setElm_self _ 0 _ h0]
  · rw [size_setElm, size_setElm]

theorem toFront_state (m : Map K V) (i : Int)
    (hi0 : ¬ (i.toNat = 0)) (hsz : i.toNat < m.elms.size) (h0sz : 0 < m.elms.size)
    (hn0 : (m.elmAt 0).next = 0) :
    (m.toFront i).elmAt i
      = { key := (m.elmAt i).key, value := (m.elmAt i).value, prev := 0, next := 0 } ∧
    (m.toFront i).elmAt 0
      = { key := (m.elmAt 0).key, value := (m.elmAt 0).value, prev := i, next := i } ∧
    (m.toFront i).meta = m.meta ∧ (m.toFront i).si = m.si ∧
    (m.toFront i).hash = m.hash ∧ (m.toFront i).elms.size = m.elms.size := by
  unfold Map.toFront
  rw [hn0]
  have h0 : ((0:Int)).toNat < m.elms.size := by simpa using h0sz
  have hne : ((0:Int)).toNat ≠ i.toNat := by
    intro hcon
    exact hi0 hcon.symm
  have hai : (m.setElm i { m.elmAt i with prev := 0, next := 0 }).elmAt 0 = m.elmAt 0 :=
    elmAt_setElm_ne _ i 0 _ (fun hcon => hi0 hcon)
  refine ⟨?_, ?_, rfl, rfl, rfl, ?_⟩
  · rw [elmAt_setElm_ne _ 0 i _ hne, elmAt_setElm_ne _ 0 i _ hne,
      elmAt_setElm_self _ i _ hsz]
  · rw [elmAt_setElm_self _ 0 _ (by rw [size_setElm, size_setElm]; exact h0)]
    rw [elmAt_setElm_self _ 0 _ (by rw [size_setElm]; exact h0)]
    rw [hai]
  · rw [size_setElm, size_setElm, size_setElm]

theorem set?_of_hit (m : Map K V) (key : K) (value : V) (hash : Nat) (i : Int)
    (hf : m.find? key = some (hash, i, m)) (hi : ¬ (i = 0)) :
    m.set? key value
      = some ((((m.unlink i).toFront i).elmAt i).value, true,
          ((m.unlink i).toFront i).setElm i
            { ((m.unlink i).toFront i).elmAt i with value := value }) := by
  unfold Map.set?
  rw [hf]
  simp only []
  rw [if_pos hi]

theorem set?_of_miss (m : Map K V) (key : K) (value : V) (hash : Nat)
    (hf : m.find? key = some (hash, 0, m)) (m' : Map K V)
    (hins : m.insert? hash key value = some m') :
    m.set? key value = some (default, false, m') := by
  unfold Map.set?
  rw [hf]
  simp only []
  rw [if_neg (show ¬ ((0:Int) ≠ 0) from by omega), hins]

theorem get?_of_hit (m : Map K V) (key : K) (hash : Nat) (i : Int)
    (hf : m.find? key = some (hash, i, m)) (hi : ¬ (i = 0)) :
    m.get? key
      = some ((((m.unlink i).toFront i).elmAt i).value, true,
          (m.unlink i).toFront i) := by
  unfold Map.get?
  rw [hf]
  simp only []
  rw [if_pos hi]

theorem insert?_noRehash (m : Map K V) (hash : Nat) (key : K) (value : V)
    (hnr : ¬ m.needRehashOrGrow) :
    m.insert? hash key value = m.insertNoGrow? hash key value := by
  unfold Map.insert? Map.insertFuel?
  rw [if_neg hnr]

theorem insertNoGrow?_first (m : Map K V) (hash : Nat) (key : K) (value : V) (i : Int)
    (hff : m.findFirstNotSetIdx (m.probe hash) m.probeFuel = some i) :
    m.insertNoGrow? hash key value
      = some (((({ m with active := m.active + 1 } : Map K V).updateH2 i (h2 hash)).setElm i
          { (({ m with active := m.active + 1 } : Map K V).updateH2 i (h2 hash)).elmAt i with
              key := key, value := value }).toFront i) := by
  unfold Map.insertNoGrow?
  rw [hff]

theorem meta_setElm (m : Map K V) (i : Int) (e : Elem K V) :
    (m.setElm i e).meta = m.meta := rfl

theorem si_setElm (m : Map K V) (i : Int) (e : Elem K V) :
    (m.setElm i e).si = m.si := rfl

theorem hash_setElm (m : Map K V) (i : Int) (e : Elem K V) :
    (m.setElm i e).hash = m.hash := rfl

theorem si_toFront (m : Map K V) (i : Int) : (m.toFront i).si = m.si := rfl

theorem hash_toFront (m : Map K V) (i : Int) : (m.toFront i).hash = m.hash := rfl

theorem si_unlink (m : Map K V) (i : Int) : (m.unlink i).si = m.si := rfl

theorem hash_unlink (m : Map K V) (i : Int) : (m.unlink i).hash = m.hash := rfl

theorem find_hit_at (m : Map K V) (k : K) (o : Int)
    (hsi : m.si = (⟨32, 16⟩ : SizeInfo))
    (hoff : (newProbe (h1 (m.hash k)) (⟨32, 16⟩ : SizeInfo)).offset = o)
    (ho1 : 1 ≤ o) (ho2 : o ≤ 32)
    (hkeyo : (m.elmAt o).key = k)
    (hself : m.meta.getD o.toNat 0 = h2 (m.hash k))
    (hother : ∀ d : Nat, 1 ≤ d → d ≤ 7 → m.meta.getD (o.toNat + d) 0 = 0) :
    m.find? k = some (m.hash k, o, m) := by
  have hcap : ¬ (m.si.capacity = 0) := by
    rw [hsi]
    decide
  have hp : m.probe (m.hash k) = newProbe (h1 (m.hash k)) (⟨32, 16⟩ : SizeInfo) := by
    unfold Map.probe
    rw [hsi]
  have hfuel : m.probeFuel = 3 + 1 := by
    unfold Map.probeFuel
    rw [hsi]
    decide
  have hidx : (newProbe (h1 (m.hash k)) (⟨32, 16⟩ : SizeInfo)).index 0 = o := by
    show addModulo (newProbe (h1 (m.hash k)) (⟨32, 16⟩ : SizeInfo)).offset 0 32 = o
    rw [hoff]
    unfold addModulo
    rw [if_neg (by omega)]
    omega
  have hself2 : m.meta.getD
      (newProbe (h1 (m.hash k)) (⟨32, 16⟩ : SizeInfo)).offset.toNat 0 = h2 (m.hash k) := by
    rw [hoff]
    exact hself
  have hother2 : ∀ d : Nat, 1 ≤ d → d ≤ 7 → m.meta.getD
      ((newProbe (h1 (m.hash k)) (⟨32, 16⟩ : SizeInfo)).offset.toNat + d) 0 = 0 := by
    intro d hd1 hd7
    rw [hoff]
    exact hother d hd1 hd7
  have hkey2 : (m.elmAt ((newProbe (h1 (m.hash k)) (⟨32, 16⟩ : SizeInfo)).index 0)).key = k := by
    rw [hidx]
    exact hkeyo
  apply find?_of_findLoop m k hcap o
  rw [hp, hfuel]
  have hone := findLoop_one_set m k (h2 (m.hash k))
    (newProbe (h1 (m.hash k)) (⟨32, 16⟩ : SizeInfo)) 3
    (by have := h2_ge (m.hash k); omega) (h2_lt (m.hash k)) hself2 hother2 hkey2
  rw [hone, hidx]

theorem touch_full (m : Map K V) (o : Int)
    (ho1 : 1 ≤ o) (hsz : o.toNat < m.elms.size) (h0sz : 0 < m.elms.size)
    (hp : (m.elmAt o).prev = 0) (hn : (m.elmAt o).next = 0) :
    ((m.unlink o).toFront o).elmAt o
      = { key := (m.elmAt o).key, value := (m.elmAt o).value, prev := 0, next := 0 } ∧
    ((m.unlink o).toFront o).meta = m.meta ∧
    ((m.unlink o).toFront o).si = m.si ∧
    ((m.unlink o).toFront o).hash = m.hash ∧
    ((m.unlink o).toFront o).elms.size = m.elms.size := by
  have hi0 : ¬ (o.toNat = 0) := by omega
  obtain ⟨hu1, hu2, hu3, hu4, hu5, hu6⟩ := unlink_state m o hi0 h0sz hp hn
  have h0sz2 : 0 < (m.unlink o).elms.size := by
    rw [hu6]
    exact h0sz
  have hsz2 : o.toNat < (m.unlink o).elms.size := by
    rw [hu6]
    exact hsz
  have hn0 : ((m.unlink o).elmAt 0).next = 0 := by rw [hu2]
  obtain ⟨ht1, ht2, ht3, ht4, ht5, ht6⟩ := toFront_state (m.unlink o) o hi0 hsz2 h0sz2 hn0
  refine ⟨?_, ?_, ?_, ?_, ?_⟩
  · rw [ht1, hu1]
  · rw [ht3, hu3]
  · rw [ht4, hu4]
  · rw [ht5, hu5]
  · rw [ht6, hu6]

theorem set_hit_then_get (mA : Map K V) (k : K) (v v2 : V) (o : Int)
    (hsi : mA.si = (⟨32, 16⟩ : SizeInfo)) (hsz : mA.elms.size = 33)
    (hoff : (newProbe (h1 (mA.hash k)) (⟨32, 16⟩ : SizeInfo)).offset = o)
    (ho1 : 1 ≤ o) (ho2 : o ≤ 32)
    (hkeyo : (mA.elmAt o).key = k) (hvalo : (mA.elmAt o).value = v)
    (hprevo : (mA.elmAt o).prev = 0) (hnexto : (mA.elmAt o).next = 0)
    (hself : mA.meta.getD o.toNat 0 = h2 (mA.hash k))
    (hother : ∀ d : Nat, 1 ≤ d → d ≤ 7 → mA.meta.getD (o.toNat + d) 0 = 0) :
    ∃ mB mC : Map K V, mA.set? k v2 = some (v, true, mB) ∧
      mB.get? k = some (v2, true, mC) := by
  have hfindA := find_hit_at mA k o hsi hoff ho1 ho2 hkeyo hself hother
  have hio : ¬ (o = 0) := by omega
  have hsetEq := set?_of_hit mA k v2 (mA.hash k) o hfindA hio
  obtain ⟨hT1, hT2, hT3, hT4, hT5⟩ := touch_full mA o ho1
    (by rw [hsz]; omega) (by rw [hsz]; omega) hprevo hnexto
  have hval : ((((mA.unlink o).toFront o)).elmAt o).value = v := by
    rw [hT1]
    exact hvalo
  rw [hval] at hsetEq
  refine ⟨((mA.unlink o).toFront o).setElm o
      { ((mA.unlink o).toFront o).elmAt o with value := v2 },
    (((((mA.unlink o).toFront o).setElm o
      { ((mA.unlink o).toFront o).elmAt o with value := v2 }).unlink o).toFront o),
    hsetEq, ?_⟩
  have hT5' : ((mA.unlink o).toFront o).elms.size = 33 := by rw [hT5, hsz]
  have hmBo : (((mA.unlink o).toFront o).setElm o
      { ((mA.unlink o).toFront o).elmAt o with value := v2 }).elmAt o
      = { key := k, value := v2, prev := 0, next := 0 } := by
    rw [elmAt_setElm_self _ _ _ (by rw [hT5']; omega)]
    rw [hT1, hkeyo]
  have hmetaB : (((mA.unlink o).toFront o).setElm o
      { ((mA.unlink o).toFront o).elmAt o with value := v2 }).meta = mA.meta := by
    rw [meta_setElm, hT2]
  have hsiB : (((mA.unlink o).toFront o).setElm o
      { ((mA.unlink o).toFront o).elmAt o with value := v2 }).si = (⟨32, 16⟩ : SizeInfo) := by
    rw [si_setElm, hT3, hsi]
  have hhashB : (((mA.unlink o).toFront o).setElm o
      { ((mA.unlink o).toFront o).elmAt o with value := v2 }).hash = mA.hash := by
    rw [hash_setElm, hT4]
  have hszB : (((mA.unlink o).toFront o).setElm o
      { ((mA.unlink o).toFront o).elmAt o with value := v2 }).elms.size = 33 := by
    rw [size_setElm, hT5']
  have hfindB := find_hit_at
    (((mA.unlink o).toFront o).setElm o
      { ((mA.unlink o).toFront o).elmAt o with value := v2 }) k o hsiB
    (by rw [hhashB]; exact hoff) ho1 ho2
    (by rw [hmBo]) (by rw [hmetaB, hhashB]; exact hself)
    (by intro d hd1 hd7; rw [hmetaB]; exact hother d hd1 hd7)
  have hgetEq := get?_of_hit
    (((mA.unlink o).toFront o).setElm o
      { ((mA.unlink o).toFront o).elmAt o with value := v2 }) k
    ((((mA.unlink o).toFront o).setElm o
      { ((mA.unlink o).toFront o).elmAt o with value := v2 }).hash k) o hfindB hio
  obtain ⟨hG1, _, _, _, _⟩ := touch_full
    (((mA.unlink o).toFront o).setElm o
      { ((mA.unlink o).toFront o).elmAt o with value := v2 }) o ho1
    (by rw [hszB]; omega) (by rw [hszB]; omega)
    (by rw [hmBo]) (by rw [hmBo])
  have hvalB : ((((((mA.unlink o).toFront o).setElm o
      { ((mA.unlink o).toFront o).elmAt o with value := v2 }).unlink o).toFront o).elmAt o).value
        = v2 := by
    rw [hG1, hmBo]
  rw [hvalB] at hgetEq
  exact hgetEq

theorem elms_updateH2 (m : Map K V) (i : Int) (v : Nat) :
    (m.updateH2 i v).elms = m.elms := rfl

theorem elmAt_updateH2 (m : Map K V) (i : Int) (v : Nat) (j : Int) :
    (m.updateH2 i v).elmAt j = m.elmAt j := rfl

theorem si_updateH2 (m : Map K V) (i : Int) (v : Nat) :
    (m.updateH2 i v).si = m.si := rfl

theorem hash_updateH2 (m : Map K V) (i : Int) (v : Nat) :
    (m.updateH2 i v).hash = m.hash := rfl

theorem meta_updateH2 (m : Map K V) (i : Int) (v : Nat) :
    (m.updateH2 i v).meta
      = if i < 8 then (m.meta.setD i.toNat v).setD (i + m.si.capacity).toNat v
        else m.meta.setD i.toNat v := rfl

theorem newMap_meta_zero (h : K → Nat) (j : Nat) :
    (newMap h : Map K V).meta.getD j 0 = 0 := by
  rw [newMap_eq]
  show (Array.mkArray 40 0).getD j 0 = 0
  rw [getD_mkArray]
  split <;> rfl

theorem newMap_si (h : K → Nat) : (newMap h : Map K V).si = (⟨32, 16⟩ : SizeInfo) := by
  rw [newMap_eq]
  rfl

theorem newMap_elms_size (h : K → Nat) : (newMap h : Map K V).elms.size = 33 := by
  rw [newMap_eq]
  show (Array.mkArray 33 (zeroElem : Elem K V)).size = 33
  simp

theorem newMap_meta_size (h : K → Nat) : (newMap h : Map K V).meta.size = 40 := by
  rw [newMap_eq]
  show (Array.mkArray 40 0).size = 40
  simp

theorem newMap_elmAt (h : K → Nat) (j : Int) :
    (newMap h : Map K V).elmAt j = zeroElem := by
  rw [newMap_eq]
  show (Array.mkArray 33 (zeroElem : Elem K V)).getD j.toNat zeroElem = zeroElem
  rw [getD_mkArray]
  split <;> rfl


/-- Executing `Set(k, v)` on a freshly constructed map: the call misses,
inserts at the slot the probe's first window starts at, and the resulting
state satisfies the one-entry table description. -/
theorem set_fresh_insert (h : K → Nat) (k : K) (v : V) :
    ∃ (mA : Map K V) (o : Int),
      (newMap h).set? k v = some (default, false, mA) ∧
      mA.si = (⟨32, 16⟩ : SizeInfo) ∧ mA.elms.size = 33 ∧
      (newProbe (h1 (mA.hash k)) (⟨32, 16⟩ : SizeInfo)).offset = o ∧
      1 ≤ o ∧ o ≤ 32 ∧
      (mA.elmAt o).key = k ∧ (mA.elmAt o).value = v ∧
      (mA.elmAt o).prev = 0 ∧ (mA.elmAt o).next = 0 ∧
      mA.meta.getD o.toNat 0 = h2 (mA.hash k) ∧
      (∀ d : Nat, 1 ≤ d → d ≤ 7 → mA.meta.getD (o.toNat + d) 0 = 0) := by
  obtain ⟨o, ho_def⟩ : ∃ o : Int,
      (newProbe (h1 ((newMap h : Map K V).hash k)) (⟨32, 16⟩ : SizeInfo)).offset = o := ⟨_, rfl⟩
  obtain ⟨ho1, ho2⟩ := newProbe_offset_bounds (h1 ((newMap h : Map K V).hash k))
    (⟨32, 16⟩ : SizeInfo) (by decide) (h1_lt _)
  rw [ho_def] at ho1 ho2
  have ho2b : o ≤ 32 := ho2
  have hcap0 : ¬ ((newMap h : Map K V).si.capacity = 0) := by
    rw [newMap_si]
    decide
  have hfuel0 : (newMap h : Map K V).probeFuel = 3 + 1 := by
    unfold Map.probeFuel
    rw [newMap_si]
    decide
  have hprobe0 : (newMap h : Map K V).probe ((newMap h : Map K V).hash k)
      = newProbe (h1 ((newMap h : Map K V).hash k)) (⟨32, 16⟩ : SizeInfo) := by
    unfold Map.probe
    rw [newMap_si]
  have hfl : (newMap h : Map K V).findLoop k (h2 ((newMap h : Map K V).hash k))
      ((newMap h : Map K V).probe ((newMap h : Map K V).hash k))
      (newMap h : Map K V).probeFuel = some 0 := by
    rw [hfuel0]
    exact findLoop_zero_meta (newMap h) k _ (newMap_meta_zero h)
      (by have := h2_ge ((newMap h : Map K V).hash k); omega)
      (h2_lt ((newMap h : Map K V).hash k)) _ 3
  have hfind0 := find?_of_findLoop (newMap h : Map K V) k hcap0 0 hfl
  have hnr : ¬ (newMap h : Map K V).needRehashOrGrow := by
    have ha : (newMap h : Map K V).active = 0 := by
      rw [newMap_eq]
      rfl
    have hd : (newMap h : Map K V).deleted = 0 := by
      rw [newMap_eq]
      rfl
    unfold Map.needRehashOrGrow
    rw [newMap_si, ha, hd]
    decide
  have hio : ((newMap h : Map K V).probe ((newMap h : Map K V).hash k)).index 0 = o := by
    rw [hprobe0]
    show addModulo
      (newProbe (h1 ((newMap h : Map K V).hash k)) (⟨32, 16⟩ : SizeInfo)).offset 0 32 = o
    rw [ho_def]
    unfold addModulo
    rw [if_neg (by omega)]
    omega
  have hff : (newMap h : Map K V).findFirstNotSetIdx
      ((newMap h : Map K V).probe ((newMap h : Map K V).hash k))
      (newMap h : Map K V).probeFuel = some o := by
    rw [hfuel0]
    rw [findFirstNotSetIdx_zero_meta (newMap h) (newMap_meta_zero h) _ 3]
    rw [hio]
  have hins : (newMap h : Map K V).insert? ((newMap h : Map K V).hash k) k v
      = some (((({ newMap h with active := (newMap h : Map K V).active + 1 } : Map K V).updateH2 o (h2 ((newMap h : Map K V).hash k))).setElm o { (({ newMap h with active := (newMap h : Map K V).active + 1 } : Map K V).updateH2 o (h2 ((newMap h : Map K V).hash k))).elmAt o with key := k, value := v }).toFront o) := by
    rw [insert?_noRehash (newMap h : Map K V) _ k v hnr]
    exact insertNoGrow?_first (newMap h : Map K V) ((newMap h : Map K V).hash k) k v o hff
  have hset1 := set?_of_miss (newMap h : Map K V) k v ((newMap h : Map K V).hash k)
    hfind0 _ hins
  have hsix : (newMap h : Map K V).si = (⟨32, 16⟩ : SizeInfo) := newMap_si h
  have hsiM1 : ({ newMap h with active := (newMap h : Map K V).active + 1 } : Map K V).si = (⟨32, 16⟩ : SizeInfo) := hsix
  have helmsX : (({ newMap h with active := (newMap h : Map K V).active + 1 } : Map K V).updateH2 o (h2 ((newMap h : Map K V).hash k))).elms = (newMap h : Map K V).elms :=
    elms_updateH2 ({ newMap h with active := (newMap h : Map K V).active + 1 } : Map K V) o _
  have hXel : ∀ j : Int, (({ newMap h with active := (newMap h : Map K V).active + 1 } : Map K V).updateH2 o (h2 ((newMap h : Map K V).hash k))).elmAt j = (newMap h : Map K V).elmAt j :=
    fun j => elmAt_updateH2 ({ newMap h with active := (newMap h : Map K V).active + 1 } : Map K V) o _ j
  have hi0 : ¬ (o.toNat = 0) := by omega
  have hszY : o.toNat < ((({ newMap h with active := (newMap h : Map K V).active + 1 } : Map K V).updateH2 o (h2 ((newMap h : Map K V).hash k))).setElm o { (({ newMap h with active := (newMap h : Map K V).active + 1 } : Map K V).updateH2 o (h2 ((newMap h : Map K V).hash k))).elmAt o with key := k, value := v }).elms.size := by
    rw [size_setElm, helmsX, newMap_elms_size]
    omega
  have h0szY : 0 < ((({ newMap h with active := (newMap h : Map K V).active + 1 } : Map K V).updateH2 o (h2 ((newMap h : Map K V).hash k))).setElm o { (({ newMap h with active := (newMap h : Map K V).active + 1 } : Map K V).updateH2 o (h2 ((newMap h : Map K V).hash k))).elmAt o with key := k, value := v }).elms.size := by
    rw [size_setElm, helmsX, newMap_elms_size]
    omega
  have hn0Y : (((({ newMap h with active := (newMap h : Map K V).active + 1 } : Map K V).updateH2 o (h2 ((newMap h : Map K V).hash k))).setElm o { (({ newMap h with active := (newMap h : Map K V).active + 1 } : Map K V).updateH2 o (h2 ((newMap h : Map K V).hash k))).elmAt o with key := k, value := v }).elmAt 0).next = 0 := by
    rw [elmAt_setElm_ne _ _ _ _ (show o.toNat ≠ (0 : Int).toNat by omega)]
    rw [hXel 0, newMap_elmAt]
    rfl
  obtain ⟨hAel, hAsent, hAmeta, hAsi, hAhash, hAsz⟩ :=
    toFront_state ((({ newMap h with active := (newMap h : Map K V).active + 1 } : Map K V).updateH2 o (h2 ((newMap h : Map K V).hash k))).setElm o { (({ newMap h with active := (newMap h : Map K V).active + 1 } : Map K V).updateH2 o (h2 ((newMap h : Map K V).hash k))).elmAt o with key := k, value := v }) o hi0 hszY h0szY hn0Y
  have hYel : ((({ newMap h with active := (newMap h : Map K V).active + 1 } : Map K V).updateH2 o (h2 ((newMap h : Map K V).hash k))).setElm o { (({ newMap h with active := (newMap h : Map K V).active + 1 } : Map K V).updateH2 o (h2 ((newMap h : Map K V).hash k))).elmAt o with key := k, value := v }).elmAt o = { (({ newMap h with active := (newMap h : Map K V).active + 1 } : Map K V).updateH2 o (h2 ((newMap h : Map K V).hash k))).elmAt o with key := k, value := v } :=
    elmAt_setElm_self _ o _ (by rw [helmsX, newMap_elms_size]; omega)
  refine ⟨(((({ newMap h with active := (newMap h : Map K V).active + 1 } : Map K V).updateH2 o (h2 ((newMap h : Map K V).hash k))).setElm o { (({ newMap h with active := (newMap h : Map K V).active + 1 } : Map K V).updateH2 o (h2 ((newMap h : Map K V).hash k))).elmAt o with key := k, value := v }).toFront o), o, hset1, ?_, ?_, ?_, ho1, ho2b, ?_, ?_, ?_, ?_, ?_, ?_⟩
  · rw [hAsi, si_setElm]
    exact hsiM1
  · rw [hAsz, size_setElm, helmsX, newMap_elms_size]
  · rw [hAhash, hash_setElm]
    have hhx : (({ newMap h with active := (newMap h : Map K V).active + 1 } : Map K V).updateH2 o (h2 ((newMap h : Map K V).hash k))).hash = (newMap h : Map K V).hash := hash_updateH2 ({ newMap h with active := (newMap h : Map K V).active + 1 } : Map K V) o _
    rw [hhx]
    exact ho_def
  · rw [hAel, hYel]
  · rw [hAel, hYel]
  · rw [hAel]
  · rw [hAel]
  · have hmA : (((({ newMap h with active := (newMap h : Map K V).active + 1 } : Map K V).updateH2 o (h2 ((newMap h : Map K V).hash k))).setElm o { (({ newMap h with active := (newMap h : Map K V).active + 1 } : Map K V).updateH2 o (h2 ((newMap h : Map K V).hash k))).elmAt o with key := k, value := v }).toFront o).meta = (({ newMap h with active := (newMap h : Map K V).active + 1 } : Map K V).updateH2 o (h2 ((newMap h : Map K V).hash k))).meta := by
      rw [hAmeta, meta_setElm]
    have hhA : (((({ newMap h with active := (newMap h : Map K V).active + 1 } : Map K V).updateH2 o (h2 ((newMap h : Map K V).hash k))).setElm o { (({ newMap h with active := (newMap h : Map K V).active + 1 } : Map K V).updateH2 o (h2 ((newMap h : Map K V).hash k))).elmAt o with key := k, value := v }).toFront o).hash = (newMap h : Map K V).hash := by
      rw [hAhash, hash_setElm]
      exact hash_updateH2 ({ newMap h with active := (newMap h : Map K V).active + 1 } : Map K V) o _
    rw [hmA, hhA]
    rw [meta_updateH2, hsiM1]
    rw [show ((⟨32, 16⟩ : SizeInfo)).capacity = (32 : Int) from rfl]
    by_cases ho8 : o < 8
    · rw [if_pos ho8, getD_setD_ne _ _ _ _ _ (by omega),
        getD_setD_self _ _ _ _ (by rw [newMap_meta_size]; omega)]
    · rw [if_neg ho8, getD_setD_self _ _ _ _ (by rw [newMap_meta_size]; omega)]
  · intro d hd1 hd7
    have hmA : (((({ newMap h with active := (newMap h : Map K V).active + 1 } : Map K V).updateH2 o (h2 ((newMap h : Map K V).hash k))).setElm o { (({ newMap h with active := (newMap h : Map K V).active + 1 } : Map K V).updateH2 o (h2 ((newMap h : Map K V).hash k))).elmAt o with key := k, value := v }).toFront o).meta = (({ newMap h with active := (newMap h : Map K V).active + 1 } : Map K V).updateH2 o (h2 ((newMap h : Map K V).hash k))).meta := by
      rw [hAmeta, meta_setElm]
    rw [hmA, meta_updateH2, hsiM1]
    rw [show ((⟨32, 16⟩ : SizeInfo)).capacity = (32 : Int) from rfl]
    by_cases ho8 : o < 8
    · rw [if_pos ho8, getD_setD_ne _ _ _ _ _ (by omega),
        getD_setD_ne _ _ _ _ _ (by omega), newMap_meta_zero]
    · rw [if_neg ho8, getD_setD_ne _ _ _ _ _ (by omega), newMap_meta_zero]

/-- **C8.** For every hasher, key `k` and values `v`, `v'`: starting from a
fresh map, after `Set(k, v)`, a second `Set(k, v')` returns `(v, true)`, and
a subsequent `Get(k)` returns `(v', true)` (the first `Set` returns the
zero value and `false`, as a miss). -/
theorem C8_set_overwrite_get (h : K → Nat) (k : K) (v v2 : V) :
    ∃ mA mB mC : Map K V,
      (newMap h).set? k v = some (default, false, mA) ∧
      mA.set? k v2 = some (v, true, mB) ∧
      mB.get? k = some (v2, true, mC) := by
  obtain ⟨mA, o, hset1, hsiA, hszA, hoffA, ho1, ho2, hkeyo, hvalo, hprevo, hnexto,
    hselfA, hotherA⟩ := set_fresh_insert h k v
  obtain ⟨mB, mC, hset2, hget3⟩ := set_hit_then_get mA k v v2 o hsiA hszA hoffA
    ho1 ho2 hkeyo hvalo hprevo hnexto hselfA hotherA
  exact ⟨mA, mB, mC, hset1, hset2, hget3⟩

/-- The identity hasher used for concrete instantiations
(`NewMap[uint64, uint64]` with `WithHasher(func(k uint64) uint64 { return k })`). -/
def hconc : Nat → Nat := fun n => n

/-- The freshly initialized capacity-32 table, written out literally (equal
to `newMap hconc`, proved below) so that concrete instantiations stay within
kernel-reducible arithmetic. -/
def freshC2 : Map Nat Nat :=
  { hash := hconc, meta := Array.mkArray 40 0, elms := Array.mkArray 33 zeroElem,
    si := ⟨32, 16⟩, active := 0, deleted := 0 }

theorem freshC2_eq : (newMap hconc : Map Nat Nat) = freshC2 := by
  rw [newMap_eq]
  rfl

/-- Number of set metadata bytes (high bit `0x80`) in slots `1..cap`. -/
def countSet (meta : Array Nat) (cap : Nat) : Nat :=
  ((List.range cap).filter (fun j => 128 ≤ meta.getD (j + 1) 0)).length

/-- Number of tombstone metadata bytes (`deleted = 2`) in slots `1..cap`. -/
def countTomb (meta : Array Nat) (cap : Nat) : Nat :=
  ((List.range cap).filter (fun j => meta.getD (j + 1) 0 = 2)).length

theorem filter_disjoint_length {α : Type} (l : List α) (P Q : α → Bool)
    (h : ∀ x, ¬(P x = true ∧ Q x = true)) :
    (l.filter P).length + (l.filter Q).length ≤ l.length := by
  induction l with
  | nil => simp
  | cons a l ih =>
    rw [List.filter_cons, List.filter_cons]
    by_cases hP : P a = true <;> by_cases hQ : Q a = true
    · exact absurd ⟨hP, hQ⟩ (h a)
    · rw [if_pos hP, if_neg hQ]
      simp only [List.length_cons]
      omega
    · rw [if_neg hP, if_pos hQ]
      simp only [List.length_cons]
      omega
    · rw [if_neg hP, if_neg hQ]
      simp only [List.length_cons]
      omega

theorem countSet_le (meta : Array Nat) (cap : Nat) : countSet meta cap ≤ cap := by
  unfold countSet
  calc ((List.range cap).filter _).length ≤ (List.range cap).length :=
        List.length_filter_le _ _
    _ = cap := List.length_range cap

theorem countSet_add_countTomb_le (meta : Array Nat) (cap : Nat) :
    countSet meta cap + countTomb meta cap ≤ cap := by
  unfold countSet countTomb
  have := filter_disjoint_length (List.range cap)
    (fun j => 128 ≤ meta.getD (j + 1) 0) (fun j => meta.getD (j + 1) 0 = 2)
    (by
      intro x hx
      obtain ⟨h1, h2⟩ := hx
      simp only [decide_eq_true_eq] at h1 h2
      omega)
  simpa using this

theorem countSet_full (meta : Array Nat) (cap : Nat)
    (hall : ∀ j, j < cap → 128 ≤ meta.getD (j + 1) 0) :
    countSet meta cap = cap := by
  unfold countSet
  rw [List.filter_eq_self.mpr]
  · exact List.length_range cap
  · intro a ha
    exact decide_eq_true (hall a (List.mem_range.mp ha))

theorem cap_toNat_eq (q : Nat) (si : SizeInfo) (hc : si.capacity = 8 * q * q) :
    si.capacity.toNat = 8 * (q * q) := by
  rw [hc]
  have h : (8 * (q:Int) * q) = ((8 * (q * q) : Nat) : Int) := by push_cast; ring
  rw [h]
  omega

/-- **C6.** On any table whose counters track the metadata (`active` = set
bytes, `deleted` = tombstone bytes in slots `1..capacity`), the occupancy
bound `active + deleted ≤ capacity` holds; `insert` triggers `rehashOrGrow`
exactly when `capacity - active - deleted < capacity / 8`; and whenever the
trigger does not fire, `insert`'s `findFirstNotSet` probe loop succeeds
(a non-set slot exists and the probe schedule reaches it). -/
theorem C6_load_and_trigger (q : Nat) (hq : 2 ≤ q) (m : Map K V)
    (hcq : m.si.capacity = 8 * q * q) (hnq : m.si.n = 8 * q)
    (hok : ∀ j : Nat, MetaByteOK (m.meta.getD j 0))
    (hmir : ∀ j : Nat, 1 ≤ j → j ≤ 7 →
      m.meta.getD (m.si.capacity.toNat + j) 0 = m.meta.getD j 0)
    (hact : m.active = (countSet m.meta m.si.capacity.toNat : Int))
    (hdel : m.deleted = (countTomb m.meta m.si.capacity.toNat : Int)) :
    m.active + m.deleted ≤ m.si.capacity ∧
    (m.needRehashOrGrow ↔ m.si.capacity - m.active - m.deleted < m.si.capacity / 8) ∧
    (¬ m.needRehashOrGrow → ∀ x : Nat, x < 2 ^ 64 →
      (m.findFirstNotSetIdx (newProbe x m.si) m.probeFuel).isSome) := by
  have hct : m.si.capacity.toNat = 8 * (q * q) := cap_toNat_eq q m.si hcq
  have hq2 : (2:Int) ≤ (q:Int) := by exact_mod_cast hq
  have hcap0 : (0:Int) ≤ m.si.capacity := by
    rw [hcq]
    nlinarith
  have hcapN : m.si.capacity = (m.si.capacity.toNat : Int) := by omega
  refine ⟨?_, ?_, ?_⟩
  · have hsum := countSet_add_countTomb_le m.meta m.si.capacity.toNat
    rw [hact, hdel, hcapN]
    exact_mod_cast hsum
  · unfold Map.needRehashOrGrow
    have hsr : (m.si.capacity.toNat >>> 3) = m.si.capacity.toNat / 8 := by
      rw [Nat.shiftRight_eq_div_pow]
    have hdiv : ((m.si.capacity.toNat / 8 : Nat) : Int) = m.si.capacity / 8 := by
      omega
    rw [hsr, hdiv]
  · intro hnr x hx
    have hfree : countSet m.meta m.si.capacity.toNat < m.si.capacity.toNat := by
      by_contra hge
      push_neg at hge
      have hle := countSet_le m.meta m.si.capacity.toNat
      have heq : countSet m.meta m.si.capacity.toNat = m.si.capacity.toNat :=
        le_antisymm hle hge
      apply hnr
      unfold Map.needRehashOrGrow
      rw [hact, heq]
      have hdel0 : (0:Int) ≤ m.deleted := by
        rw [hdel]
        positivity
      have hq4 : 4 ≤ m.si.capacity.toNat >>> 3 := by
        have h83 : (2:Nat) ^ 3 = 8 := by norm_num
        rw [Nat.shiftRight_eq_div_pow, h83, hct,
          Nat.mul_div_cancel_left _ (by norm_num : 0 < 8)]
        nlinarith
      omega
    obtain ⟨j, hjlt, hjP⟩ : ∃ j, j < m.si.capacity.toNat ∧
        ¬ (128 ≤ m.meta.getD (j + 1) 0) := by
      by_contra hall
      push_neg at hall
      have := countSet_full m.meta m.si.capacity.toNat hall
      omega
    have hs1 : (1:Int) ≤ ((j + 1 : Nat) : Int) := by exact_mod_cast Nat.succ_le_succ (Nat.zero_le j)
    have hs2 : ((j + 1 : Nat) : Int) ≤ m.si.capacity := by
      rw [hcapN]
      exact_mod_cast hjlt
    obtain ⟨kk, hk, d, hd0, hd8, hidx⟩ :=
      probe_covers q hq m.si hcq hnq x hx ((j + 1 : Nat) : Int) hs1 hs2
    obtain ⟨ho1, ho2, _, hsiK⟩ := probeSeq_spec q hq m.si hcq hnq x hx kk
    have hkfuel : kk < m.probeFuel := by
      show kk < numGroups m.si
      rw [numGroups_eq q m.si hcq]
      exact hk
    have hdnat : ((d.toNat : Nat) : Int) = d := Int.toNat_of_nonneg hd0
    have hidx2 : addModulo (probeSeq x m.si kk).offset d m.si.capacity
        = ((j + 1 : Nat) : Int) := by
      unfold Probe.index at hidx
      rw [hsiK] at hidx
      exact hidx
    have hcap8 : (8:Int) ≤ m.si.capacity := by
      rw [hcq]
      nlinarith
    have hw := window_byte m.meta m.si.capacity hcap8 hmir
      (probeSeq x m.si kk).offset ho1 ho2 d.toNat (by omega)
    apply findFirstNotSetIdx_isSome m hok m.probeFuel (newProbe x m.si)
    refine ⟨kk, hkfuel, d.toNat, by omega, ?_⟩
    show m.meta.getD ((probeSeq x m.si kk).offset.toNat + d.toNat) 0 < 128
    rw [hw, hdnat, hidx2]
    have hjn : (((j + 1 : Nat) : Int)).toNat = j + 1 := by omega
    rw [hjn]
    omega

theorem C6_load_and_trigger_witness :
    ((2:Nat) ≤ 2 ∧ freshC2.si.capacity = 8 * 2 * 2 ∧ freshC2.si.n = 8 * 2 ∧
     (∀ j : Nat, MetaByteOK (freshC2.meta.getD j 0)) ∧
     (∀ j : Nat, 1 ≤ j → j ≤ 7 →
       freshC2.meta.getD (freshC2.si.capacity.toNat + j) 0 = freshC2.meta.getD j 0) ∧
     freshC2.active = (countSet freshC2.meta freshC2.si.capacity.toNat : Int) ∧
     freshC2.deleted = (countTomb freshC2.meta freshC2.si.capacity.toNat : Int)) ∧
    (freshC2.active + freshC2.deleted ≤ freshC2.si.capacity ∧
     (freshC2.needRehashOrGrow ↔
       freshC2.si.capacity - freshC2.active - freshC2.deleted < freshC2.si.capacity / 8) ∧
     (¬ freshC2.needRehashOrGrow → ∀ x : Nat, x < 2 ^ 64 →
       (freshC2.findFirstNotSetIdx (newProbe x freshC2.si) freshC2.probeFuel).isSome)) := by
  have hz : ∀ j : Nat, freshC2.meta.getD j 0 = 0 := by
    intro j
    show (Array.mkArray 40 0).getD j 0 = 0
    rw [getD_mkArray]
    split <;> rfl
  refine ⟨⟨by decide, by decide, by decide, ?_, ?_, by decide, by decide⟩, ?_⟩
  · intro j
    rw [hz]
    left
    rfl
  · intro j h1 h7
    rw [hz, hz]
  · exact C6_load_and_trigger 2 (by decide) freshC2 (by decide) (by decide)
      (fun j => by rw [hz]; left; rfl)
      (fun j h1 h7 => by rw [hz, hz])
      (by decide) (by decide)
